import Mathlib

/-!
# esh: a verification development of `shell/shell.c`

The C file is embedded shallowly.  Bytes (`char`) are natural numbers below 256,
C strings are the lists of their bytes before the terminator, memory objects
(`line_buff`, `argv`) are lists whose length is the size of the object, and every
access outside an object is reported as a `Fault` instead of being performed.
What the program does to the outside world is recorded as a list of `Event`s:
the calls of `getc` and `putc` and the calls of command handlers.  A handler call
is one event; what the handler itself does is outside the file and not modelled.
The command tables, which the linker lays out, are parameters.
-/

namespace Esh

/-! ## Constants (lines 30-41) -/

abbrev END_OF_LINE : Nat := 0
abbrev SPACE : Nat := 32
/-- The tab byte; `parse_line` writes it as the literal `'\t'`. -/
abbrev TAB : Nat := 9
abbrev NEW_LINE : Nat := 10
abbrev CARRIAGE_RETURN : Nat := 13
abbrev BACK_SPACE : Nat := 8
/-- The byte `'\177'` (octal). -/
abbrev DELETE : Nat := 127
/-- The bytes of the string `"# "`. -/
abbrev PROMPT : List Nat := [35, 32]
abbrev LINE_BUFF_SIZE : Nat := 64
abbrev MAX_ARG_COUNT : Nat := LINE_BUFF_SIZE / 2

/-! ## Memory faults -/

/-- The ways in which the C code leaves defined behaviour. -/
inductive Fault where
  /-- read or write of `line_buff[index]` outside the object -/
  | line_buff_bounds (index : Int)
  /-- store to `argv[index]` outside the array -/
  | argv_bounds (index : Nat)
  /-- `argv[0]` read although nothing was stored in it -/
  | argv_unset
  /-- a `printf` conversion with no matching argument -/
  | format
  /-- `++` applied to an `int` that holds `INT_MAX` -/
  | int_overflow
  /-- the unrolling bound of a loop of the model was used up -/
  | fuel
  deriving DecidableEq, Repr

deriving instance DecidableEq for Except

/-- The bytes of a string literal. -/
def bytes (s : String) : List Nat := s.toList.map Char.toNat

/-- Reading `line_buff[i]`. -/
def load (line_buff : List Nat) (i : Nat) : Except Fault Nat :=
  match line_buff[i]? with
  | some c => .ok c
  | none => .error (.line_buff_bounds i)

/-- The assignment `line_buff[i] = c`. -/
def store (line_buff : List Nat) (i : Nat) (c : Nat) : Except Fault (List Nat) :=
  if i < line_buff.length then .ok (line_buff.set i c) else .error (.line_buff_bounds i)

/-- The assignment `argv[i] = &line_buff[pos]`; a pointer is kept as its offset
`pos` into `line_buff`, the null pointer as `none`. -/
def store_arg (argv : List (Option Nat)) (i : Nat) (pos : Nat) :
    Except Fault (List (Option Nat)) :=
  if i < argv.length then .ok (argv.set i (some pos)) else .error (.argv_bounds i)

/-- Modelled from the spec: `strlen` of the C library (`string.h` is not part of
the file): the number of bytes before the first terminator; running off the end
of the object is a fault. -/
def strlen : List Nat → Option Nat
  | [] => none
  | c :: s => if c = END_OF_LINE then some 0 else (strlen s).map (· + 1)

/-- The C string that starts at offset `off` of `mem`. -/
def cstr (mem : List Nat) (off : Nat) : List Nat :=
  (mem.drop off).takeWhile (· ≠ END_OF_LINE)

/-! ## `parse_line` (lines 53-71) -/

/-- The largest value of the type `int`, which is 32 bits wide. -/
abbrev INT_MAX : Nat := 2147483647

/-- The value an `int` takes when the `size_t` value `n` is assigned to it, as in
`int length = strlen(line_buff)` (line 56): `n` reduced modulo `2^32` into the
range from `-2^31` to `2^31 - 1`. -/
def to_int (n : Nat) : Int :=
  if n % 4294967296 < 2147483648 then ((n % 4294967296 : Nat) : Int)
  else ((n % 4294967296 : Nat) : Int) - 4294967296

/-- The increment `i++` of an `int` that holds `i`, which is not negative: at
`INT_MAX` the increment overflows, and that is a fault. -/
def incr (i : Nat) : Except Fault Nat :=
  if i < INT_MAX then .ok (i + 1) else .error .int_overflow

/-- The condition of lines 59 and 62: the byte is neither tab, space nor terminator. -/
def in_word (c : Nat) : Bool := c != TAB && c != SPACE && c != END_OF_LINE

/-- The condition of line 64: the byte is a tab or a space. -/
def is_blank (c : Nat) : Bool := c == TAB || c == SPACE

/-- The local variables of `parse_line` together with the two objects it writes.
The `int`s `argc` and `pos` start at 0 and are changed by `++` only, so they are
never negative; they are kept as naturals and every `++` goes through `incr`. -/
structure ParseState where
  argc : Nat
  pos : Nat
  argv : List (Option Nat)
  line_buff : List Nat
  deriving DecidableEq, Repr

/-- The `for` loop of line 62, started at `pos` with `mem` the bytes from
`line_buff[pos]` on: advance while the byte read is part of a word. -/
def skip_word : List Nat → Nat → Except Fault Nat
  | [], pos => .error (.line_buff_bounds pos)
  | c :: mem, pos =>
    if in_word c then
      match incr pos with
      | .error f => .error f
      | .ok pos' => skip_word mem pos'
    else .ok pos

/-- One pass through the body of the `while` loop (lines 59-67). -/
def parse_body (st : ParseState) : Except Fault ParseState :=
  match load st.line_buff st.pos with
  | .error f => .error f
  | .ok c =>
    -- lines 59-60
    match (if in_word c then
             (store_arg st.argv st.argc st.pos).bind
               (fun argv => (incr st.argc).map (fun argc => (argv, argc)))
           else .ok (st.argv, st.argc)) with
    | .error f => .error f
    | .ok (argv, argc) =>
      -- line 62
      match skip_word (st.line_buff.drop st.pos) st.pos with
      | .error f => .error f
      | .ok pos =>
        -- lines 64-65
        match load st.line_buff pos with
        | .error f => .error f
        | .ok d =>
          match (if is_blank d then store st.line_buff pos END_OF_LINE
                 else .ok st.line_buff) with
          | .error f => .error f
          | .ok line_buff =>
            -- line 67
            match incr pos with
            | .error f => .error f
            | .ok pos' =>
              .ok { argc := argc, pos := pos', argv := argv, line_buff := line_buff }

/-- The loop `while (pos <= length)` of line 58, unrolled at most `fuel` times;
`length` is an `int` and may be negative. -/
def parse_loop (length : Int) : Nat → ParseState → Except Fault ParseState
  | 0, st => if (st.pos : Int) ≤ length then .error .fuel else .ok st
  | fuel + 1, st =>
    if (st.pos : Int) ≤ length then
      match parse_body st with
      | .error f => .error f
      | .ok st' => parse_loop length fuel st'
    else .ok st

/-- What `parse_line` leaves behind: the returned count and the two objects. -/
structure ParseResult where
  argc : Nat
  argv : List (Option Nat)
  line_buff : List Nat
  deriving DecidableEq, Repr

/-- `parse_line(argv, line_buff, argument_size)`.  As in the C code the third
parameter is never looked at.  The result `n` of `strlen` is converted to the
`int` `length`, which is at most `n`.  Every pass of the loop advances `pos`, so
`n + 1` passes are always enough. -/
def parse_line (argv : List (Option Nat)) (line_buff : List Nat) (argument_size : Nat) :
    Except Fault ParseResult :=
  match strlen line_buff with
  | none => .error (.line_buff_bounds line_buff.length)
  | some n =>
    match parse_loop (to_int n) (n + 1)
        { argc := 0, pos := 0, argv := argv, line_buff := line_buff } with
    | .error f => .error f
    | .ok st => .ok { argc := st.argc, argv := st.argv, line_buff := st.line_buff }

/-- The strings the first `argc` entries of `argv` point at. -/
def arg_strings (r : ParseResult) : List (List Nat) :=
  ((r.argv.take r.argc).reduceOption).map (cstr r.line_buff)

/-! ## Commands, events and the formatting collaborator -/

/-- One entry of a command table (`cmd_t` of `shell.h`).  The two strings are the
bytes before their terminators; the handler is kept as its address.  A table is
the list of its entries before the terminating `{NULL, NULL, NULL}` entry. -/
structure cmd_t where
  command_name : List Nat
  command_help : List Nat
  command : Nat
  deriving DecidableEq, Repr

/-- What the program does that can be seen from outside. -/
inductive Event where
  /-- a call of `getc` that returned `s` -/
  | getc (s : Int)
  /-- a call of `putc` with byte `c` -/
  | putc (c : Nat)
  /-- a call of the handler at address `command`; `argv` is `none` for `NULL`,
  else the strings of the first `argc` entries -/
  | call (command : Nat) (argc : Nat) (argv : Option (List (List Nat)))
  deriving DecidableEq, Repr

/-- The bytes written by a list of events. -/
def output : List Event → List Nat
  | [] => []
  | .putc c :: es => c :: output es
  | _ :: es => output es

/-- The handler calls in a list of events. -/
def calls : List Event → List Event
  | [] => []
  | .call f n a :: es => .call f n a :: calls es
  | _ :: es => calls es

/-- Modelled from the spec: `strcmp` of the C library, of which the code only
uses whether the result is zero: zero exactly for equal strings. -/
def strcmp (a b : List Nat) : Int :=
  if a = b then 0 else if a < b then -1 else 1

/-- Modelled from the spec: the scan of a format by `printf`, the external
formatting collaborator; `pending` tells whether the byte before was a `%` that
opened a conversion.  The bytes of the format are copied to the output, `%s` is
replaced by the next string argument and `%%` by one `%`; any other conversion,
or `%s` with no argument left, is a fault. -/
def printf_from : Bool → List Nat → List (List Nat) → Except Fault (List Nat)
  | false, [], _ => .ok []
  | true, [], _ => .error .format
  | false, c :: format, args =>
    if c = 37 then printf_from true format args
    else (printf_from false format args).map (c :: ·)
  | true, c :: format, args =>
    if c = 115 then
      match args with
      | arg :: args' => (printf_from false format args').map (arg ++ ·)
      | [] => .error .format
    else if c = 37 then (printf_from false format args).map (37 :: ·)
    else .error .format

/-- Modelled from the spec: `printf(format, args...)` with string arguments: the
bytes written. -/
def printf (format : List Nat) (args : List (List Nat)) : Except Fault (List Nat) :=
  printf_from false format args

/-- The events of a `printf` call. -/
def print (format : List Nat) (args : List (List Nat)) : Except Fault (List Event) :=
  (printf format args).map (List.map Event.putc)

/-! ## `execute` (lines 73-86) -/

/-- The `for` loop of lines 76-82 over the entries of `table`: the value of
`match_found` after the loop and the events of the loop. -/
def execute_loop (argc : Nat) (argv : List (List Nat)) (arg0 : List Nat) :
    List cmd_t → Bool × List Event
  | [] => (false, [])
  | e :: table =>
    if strcmp arg0 e.command_name = 0 then (true, [Event.call e.command argc (some argv)])
    else execute_loop argc argv arg0 table

/-- `execute(argc, argv)` over the interactive table `table`; `argv` holds the
strings the entries point at. -/
def execute (table : List cmd_t) (argc : Nat) (argv : List (List Nat)) :
    Except Fault (List Event) :=
  match argv with
  | [] => .error .argv_unset
  | arg0 :: _ =>
    match execute_loop argc argv arg0 table with
    | (true, events) => .ok events
    | (false, events) =>
      match print (bytes "\"%s\": command not found. Use \"help\" to list all command.\n")
          [arg0] with
      | .error f => .error f
      | .ok out => .ok (events ++ out)

/-! ## `delete` and `shell` (lines 88-146) -/

/-- The bytes written by `delete()`. -/
def delete : List Nat := [BACK_SPACE, SPACE, BACK_SPACE]

/-- The locals of `shell` that the editing loop changes. -/
structure EditState where
  count : Int
  line_buff : List Nat
  deriving DecidableEq, Repr

/-- The assignment `line_buff[i] = c` with an `int` index. -/
def store_at (line_buff : List Nat) (i : Int) (c : Nat) : Except Fault (List Nat) :=
  if 0 ≤ i ∧ i < line_buff.length then .ok (line_buff.set i.toNat c)
  else .error (.line_buff_bounds i)

/-- How one pass of the editing loop ends. -/
inductive Step where
  /-- the loop goes round again, having written `out` -/
  | next (st : EditState) (out : List Nat)
  /-- the `break` of line 118, having written `out` -/
  | stop (st : EditState) (out : List Nat)
  | fault (f : Fault)
  deriving DecidableEq, Repr

/-- One pass through the body of `while (TRUE)` (lines 111-137) when `getc`
returned `s`; `c = (char)s` is `s` reduced modulo 256. -/
def shell_step (st : EditState) (s : Int) : Step :=
  if s ≠ -1 then
    let c := (s % 256).toNat
    if c = CARRIAGE_RETURN ∨ c = NEW_LINE then
      match store_at st.line_buff st.count END_OF_LINE with
      | .error f => .fault f
      | .ok line_buff => .stop { st with line_buff := line_buff } [NEW_LINE]
    else if c = DELETE then
      if st.count = 0 then .next st []
      else
        match store_at st.line_buff (st.count - 1) END_OF_LINE with
        | .error f => .fault f
        | .ok line_buff => .next { count := st.count - 1, line_buff := line_buff } (delete ++ [c])
    else
      match store_at st.line_buff st.count c with
      | .error f => .fault f
      | .ok line_buff => .next { count := st.count + 1, line_buff := line_buff } [c]
  else .next st []

/-- How the editing loop stands when the given input has been used up or the
loop has been left. -/
inductive LineStatus where
  /-- the loop was left by `break`; `rest` is the input not yet read -/
  | done (st : EditState) (rest : List Int)
  /-- all input was read and the loop is still polling -/
  | waiting (st : EditState)
  | fault (f : Fault)
  deriving DecidableEq, Repr

structure LineRun where
  events : List Event
  status : LineStatus
  deriving DecidableEq, Repr

/-- The loop `while (TRUE)` of lines 110-138 fed the results of successive
`getc` calls. -/
def shell_loop : List Int → EditState → LineRun
  | [], st => { events := [], status := .waiting st }
  | s :: input, st =>
    match shell_step st s with
    | .fault f => { events := [.getc s], status := .fault f }
    | .stop st' out => { events := .getc s :: out.map .putc, status := .done st' input }
    | .next st' out =>
      let r := shell_loop input st'
      { events := .getc s :: out.map .putc ++ r.events, status := r.status }

/-- How a run of `shell`, or of the driver, stands. -/
inductive Status where
  /-- the function returned; `rest` is the input not yet read -/
  | returned (rest : List Int)
  /-- all input was read and `getc` is being polled -/
  | waiting
  | fault (f : Fault)
  deriving DecidableEq, Repr

structure Run where
  events : List Event
  status : Status
  deriving DecidableEq, Repr

/-- `shell()` over the interactive table `table`, fed the results of successive
`getc` calls. -/
def shell (table : List cmd_t) (input : List Int) : Run :=
  let line_buff := List.replicate LINE_BUFF_SIZE 0
  let argv : List (Option Nat) := List.replicate MAX_ARG_COUNT none
  match print PROMPT [] with
  | .error f => { events := [], status := .fault f }
  | .ok shown =>
    let r := shell_loop input { count := 0, line_buff := line_buff }
    match r.status with
    | .fault f => { events := shown ++ r.events, status := .fault f }
    | .waiting _ => { events := shown ++ r.events, status := .waiting }
    | .done st rest =>
      match parse_line argv st.line_buff MAX_ARG_COUNT with
      | .error f => { events := shown ++ r.events, status := .fault f }
      | .ok p =>
        if p.argc > 0 then
          match execute table p.argc (arg_strings p) with
          | .error f => { events := shown ++ r.events, status := .fault f }
          | .ok done => { events := shown ++ r.events ++ done, status := .returned rest }
        else { events := shown ++ r.events, status := .returned rest }

/-! ## `exec_auto_cmds`, `prompt`, `exec` and `help` (lines 148-191) -/

/-- `exec(cmd_str)`: the events, and the caller's string as `parse_line` left it. -/
def exec (table : List cmd_t) (cmd_str : List Nat) : Except Fault (List Event × List Nat) :=
  let argv : List (Option Nat) := List.replicate MAX_ARG_COUNT none
  match parse_line argv cmd_str MAX_ARG_COUNT with
  | .error f => .error f
  | .ok p =>
    if p.argc > 0 then
      match execute table p.argc (arg_strings p) with
      | .error f => .error f
      | .ok done => .ok (done, p.line_buff)
    else .ok ([], p.line_buff)

/-- The loop of `help` over the entries of the interactive table: the bytes of
the four `printf` calls of each pass. -/
def help_loop : List cmd_t → Except Fault (List Nat)
  | [] => .ok []
  | e :: table =>
    match printf e.command_name [] with
    | .error f => .error f
    | .ok name =>
      match printf (bytes "\n\t") [] with
      | .error f => .error f
      | .ok sep =>
        match printf e.command_help [] with
        | .error f => .error f
        | .ok text =>
          match printf (bytes "\n\n") [] with
          | .error f => .error f
          | .ok gap =>
            match help_loop table with
            | .error f => .error f
            | .ok more => .ok (name ++ sep ++ text ++ gap ++ more)

/-- `help(argc, argv)` over the interactive table `table`: the bytes written. -/
def help (table : List cmd_t) (argc : Nat) (argv : Option (List (List Nat))) :
    Except Fault (List Nat) :=
  help_loop table

/-! ## Typed input -/

/-- The events of reading the bytes `b` one by one, each echoed when read. -/
def echo (b : List Nat) : List Event :=
  b.flatMap (fun c => [Event.getc c, Event.putc c])

/-- The line of 33 one-letter words `a a ... a`, 65 bytes long. -/
def many_words : List Nat := (List.replicate 32 [97, SPACE]).flatten ++ [97]

/-- The state in which `shell` enters its editing loop. -/
def fresh : EditState := { count := 0, line_buff := List.replicate LINE_BUFF_SIZE 0 }

/-! ## What `parse_line` computes, stated on lists -/

/-- The offsets at which words start in `l`, the first byte of `l` being at
offset `pos`; `inside` tells whether the byte before `l` belongs to a word. -/
def starts : Bool → List Nat → Nat → List Nat
  | _, [], _ => []
  | inside, c :: l, pos =>
    if in_word c then
      if inside then starts true l (pos + 1) else pos :: starts true l (pos + 1)
    else starts false l (pos + 1)

/-- The line with every tab and space replaced by the terminator. -/
def blank_out (l : List Nat) : List Nat :=
  l.map (fun c => if is_blank c then END_OF_LINE else c)

/-- A word: a non-empty list of bytes none of which is tab, space or terminator. -/
def is_word (w : List Nat) : Prop :=
  w ≠ [] ∧ ∀ c ∈ w, c ≠ TAB ∧ c ≠ SPACE ∧ c ≠ END_OF_LINE

/-- A run of separators: every byte is a tab or a space. -/
def is_run (s : List Nat) : Prop := ∀ c ∈ s, c = TAB ∨ c = SPACE

/-- The bytes of a sequence of words, each followed by its run of separators. -/
def build_line : List (List Nat × List Nat) → List Nat
  | [] => []
  | (w, s) :: rest => w ++ s ++ build_line rest

/-- Every first component is a word, every second one a run of separators, and
the run is non-empty whenever another word follows it. -/
def separated : List (List Nat × List Nat) → Prop
  | [] => True
  | (w, s) :: rest => is_word w ∧ is_run s ∧ (rest ≠ [] → s ≠ []) ∧ separated rest


/-- The tokens of a line: the strings found at the word starts once every tab
and space has been replaced by the terminator. -/
def tokens (line : List Nat) : List (List Nat) :=
  (starts false line 0).map (cstr (blank_out line ++ [END_OF_LINE]))

/-- Offset `off` of the line `l` holds the first byte of a word: a byte that is neither
tab, space nor terminator and that stands at the start of the line or right
behind a byte that is one of these three. -/
def word_start (l : List Nat) (off : Nat) : Prop :=
  (∃ c, l[off]? = some c ∧ c ≠ TAB ∧ c ≠ SPACE ∧ c ≠ END_OF_LINE) ∧
    (off = 0 ∨
      ∃ k d, off = k + 1 ∧ l[k]? = some d ∧ (d = TAB ∨ d = SPACE ∨ d = END_OF_LINE))

/-- The word that starts at offset `off` of the line `l`: the bytes from there up
to the next tab, space or terminator, or to the end of the line. -/
def word_at (l : List Nat) (off : Nat) : List Nat :=
  (l.drop off).takeWhile (fun c => c ≠ TAB ∧ c ≠ SPACE ∧ c ≠ END_OF_LINE)

/-- The results of `getc` that carry a byte: the input without the results `-1`. -/
def bytes_read (input : List Int) : List Int := input.filter (fun s => s ≠ -1)

/-- The events without the calls of `getc` that found no byte. -/
def without_idle (events : List Event) : List Event :=
  events.filter (fun e => e ≠ Event.getc (-1))

/-- The status with the unread input reduced to the results that carry a byte. -/
def LineStatus.bytes_read : LineStatus → LineStatus
  | .done st rest => .done st (Esh.bytes_read rest)
  | s => s

/-- The status with the unread input reduced to the results that carry a byte. -/
def Status.bytes_read : Status → Status
  | .returned rest => .returned (Esh.bytes_read rest)
  | s => s

/-- The states in which the loop of `parse_line` stands at the head of a pass,
when it was entered in the state `st` with `length` the `int` that holds the
value of `strlen`. -/
inductive parse_reaches (length : Int) (st : ParseState) : ParseState → Prop where
  /-- the state in which the loop is entered -/
  | start : parse_reaches length st st
  /-- the state after one more pass of the body -/
  | pass (a b : ParseState) : parse_reaches length st a → (a.pos : Int) ≤ length →
      parse_body a = .ok b → parse_reaches length st b

/-- The word of `2^31 - 2` letters `a`. -/
def long_word : List Nat := 97 :: List.replicate 2147483645 97

/-- The run of `INT_MAX` spaces. -/
def long_run : List Nat := SPACE :: List.replicate 2147483646 SPACE

/-! ## Lemmas on memory accesses -/

theorem load_mid (pre post : List Nat) (c : Nat) :
    load (pre ++ c :: post) pre.length = .ok c := by
  have h : (pre ++ c :: post)[pre.length]? = some c := by
    rw [List.getElem?_append_right (Nat.le_refl _)]
    simp
  simp [load, h]

theorem store_mid (pre post : List Nat) (c d : Nat) :
    store (pre ++ c :: post) pre.length d = .ok (pre ++ d :: post) := by
  simp [store]

theorem store_arg_mid (fixed free : List (Option Nat)) (x : Option Nat) (pos : Nat) :
    store_arg (fixed ++ x :: free) fixed.length pos = .ok (fixed ++ some pos :: free) := by
  simp [store_arg]

theorem in_word_iff (c : Nat) : in_word c = true ↔ c ≠ 9 ∧ c ≠ 32 ∧ c ≠ 0 := by
  simp [in_word, and_assoc]

theorem is_blank_iff (c : Nat) : is_blank c = true ↔ c = 9 ∨ c = 32 := by
  simp [is_blank]

theorem not_in_word_iff (c : Nat) : in_word c = false ↔ is_blank c = true ∨ c = 0 := by
  have h := in_word_iff c
  have h' := is_blank_iff c
  cases hw : in_word c <;> cases hb : is_blank c <;> simp_all

theorem lt_INT_MAX (n : Nat) (h : n < 2147483647) : n < INT_MAX := h

theorem incr_ok (i : Nat) (h : i < INT_MAX) : incr i = .ok (i + 1) := by
  simp [incr, h]

theorem incr_max (i : Nat) (h : INT_MAX ≤ i) : incr i = .error .int_overflow := by
  have h' : ¬ i < INT_MAX := by omega
  simp [incr, h']

theorem to_int_small (n : Nat) (h : n ≤ INT_MAX) : to_int n = n := by
  have hI : INT_MAX = 2147483647 := rfl
  unfold to_int
  split <;> omega

theorem to_int_le (n : Nat) : to_int n ≤ n := by
  unfold to_int
  split <;> omega

theorem skip_word_append (w : List Nat) (hw : ∀ c ∈ w, in_word c = true) (mem : List Nat)
    (pos : Nat) (hpos : pos + w.length ≤ INT_MAX) :
    skip_word (w ++ mem) pos = skip_word mem (pos + w.length) := by
  induction w generalizing pos with
  | nil => simp
  | cons c w ih =>
    have hc : in_word c = true := hw c (by simp)
    have hrest : ∀ d ∈ w, in_word d = true := fun d hd => hw d (by simp [hd])
    have e : pos + 1 + w.length = pos + (w.length + 1) := by omega
    have hlt : pos < INT_MAX := by
      simp only [List.length_cons] at hpos
      omega
    have hnext : pos + 1 + w.length ≤ INT_MAX := by
      simp only [List.length_cons] at hpos
      omega
    show skip_word (c :: (w ++ mem)) pos = _
    rw [skip_word, if_pos hc, incr_ok pos hlt]
    simp only []
    rw [ih hrest (pos + 1) hnext, List.length_cons, e]

theorem skip_word_stop (c : Nat) (hc : in_word c = false) (mem : List Nat) (pos : Nat) :
    skip_word (c :: mem) pos = .ok pos := by
  simp [skip_word, hc]

/-- One pass of the loop over a (possibly empty) stretch `w` of word bytes and the
byte `d` that ends it, up to the last `pos++`. -/
theorem parse_body_scan (pre w post : List Nat) (d : Nat) (hw : ∀ c ∈ w, in_word c = true)
    (hd : in_word d = false) (argc : Nat) (argv : List (Option Nat))
    (hpos : pre.length + w.length ≤ INT_MAX) (hargc : w = [] ∨ argc < INT_MAX) :
    parse_body { argc := argc, pos := pre.length, argv := argv,
                 line_buff := pre ++ w ++ d :: post } =
      match (if w = [] then Except.ok (argv, argc)
             else (store_arg argv argc pre.length).map (fun a => (a, argc + 1))) with
      | .error f => .error f
      | .ok (argv', argc') =>
        match incr (pre.length + w.length) with
        | .error f => .error f
        | .ok pos =>
          .ok { argc := argc', pos := pos, argv := argv',
                line_buff := pre ++ w ++ END_OF_LINE :: post } := by
  have hskip : skip_word ((pre ++ w ++ d :: post).drop pre.length) pre.length
      = .ok (pre.length + w.length) := by
    rw [List.append_assoc, List.drop_left, skip_word_append w hw _ _ hpos, skip_word_stop d hd]
  have hload : load (pre ++ w ++ d :: post) (pre.length + w.length) = .ok d := by
    have := load_mid (pre ++ w) post d
    simpa using this
  have hstore : store (pre ++ w ++ d :: post) (pre.length + w.length) END_OF_LINE
      = .ok (pre ++ w ++ END_OF_LINE :: post) := by
    have := store_mid (pre ++ w) post d END_OF_LINE
    simpa using this
  have hd' := (not_in_word_iff d).1 hd
  cases w with
  | nil =>
    have h0 : load (pre ++ d :: post) pre.length = .ok d := load_mid pre post d
    simp only [List.append_nil, List.length_nil, Nat.add_zero] at hskip hload hstore ⊢
    simp only [parse_body, h0, hd, hskip, hload]
    rcases hd' with hb | hz
    · simp [hb, hstore]
    · subst hz
      simp [is_blank]
  | cons c w =>
    have hc : in_word c = true := hw c (by simp)
    have hargc : argc < INT_MAX := by
      rcases hargc with h | h
      · cases h
      · exact h
    have h0 : load (pre ++ c :: w ++ d :: post) pre.length = .ok c := by
      have := load_mid pre (w ++ d :: post) c
      simpa using this
    simp only [parse_body, h0, hc, hskip, hload, incr_ok argc hargc]
    cases store_arg argv argc pre.length with
    | error f => simp [Except.map, Except.bind]
    | ok a =>
      simp only [List.cons_append, List.length_cons, List.append_assoc] at hstore
      rcases hd' with hb | hz
      · simp [Except.map, Except.bind, hb, hstore]
      · subst hz
        simp [Except.map, Except.bind, is_blank]

/-- One pass of the loop over a stretch of word bytes and the byte that ends it,
when the last `pos++` does not overflow. -/
theorem parse_body_word (pre w post : List Nat) (d : Nat) (hw : ∀ c ∈ w, in_word c = true)
    (hd : in_word d = false) (argc : Nat) (argv : List (Option Nat))
    (hpos : pre.length + w.length < INT_MAX) (hargc : argc < INT_MAX) :
    parse_body { argc := argc, pos := pre.length, argv := argv,
                 line_buff := pre ++ w ++ d :: post } =
      match (if w = [] then Except.ok (argv, argc)
             else (store_arg argv argc pre.length).map (fun a => (a, argc + 1))) with
      | .error f => .error f
      | .ok (argv', argc') =>
        .ok { argc := argc', pos := pre.length + w.length + 1, argv := argv',
              line_buff := pre ++ w ++ END_OF_LINE :: post } := by
  rw [parse_body_scan pre w post d hw hd argc argv (Nat.le_of_lt hpos) (Or.inr hargc),
    incr_ok _ hpos]

/-- One pass of the loop that ends at offset `INT_MAX`: the last `pos++` overflows. -/
theorem parse_body_overflow (pre w post : List Nat) (d : Nat)
    (hw : ∀ c ∈ w, in_word c = true) (hd : in_word d = false) (argc : Nat)
    (argv : List (Option Nat)) (hpos : pre.length + w.length = INT_MAX)
    (hcap : w = [] ∨ (argc < argv.length ∧ argc < INT_MAX)) :
    parse_body { argc := argc, pos := pre.length, argv := argv,
                 line_buff := pre ++ w ++ d :: post } = .error .int_overflow := by
  rw [parse_body_scan pre w post d hw hd argc argv (Nat.le_of_eq hpos)
      (hcap.imp id (fun h => h.2)),
    incr_max _ (Nat.le_of_eq hpos.symm)]
  rcases hcap with rfl | hcap
  · simp
  · by_cases hnil : w = []
    · simp [hnil]
    · simp [hnil, store_arg, hcap.1, Except.map]

/-! ## The scanning loop of `parse_line` -/

theorem parse_loop_exit (length : Int) (fuel : Nat) (st : ParseState)
    (h : length < (st.pos : Int)) : parse_loop length fuel st = .ok st := by
  have h' : ¬ (st.pos : Int) ≤ length := by omega
  cases fuel <;> simp [parse_loop, h']

theorem parse_loop_pass (length : Int) (fuel : Nat) (st st' : ParseState)
    (h : (st.pos : Int) ≤ length) (hb : parse_body st = .ok st') :
    parse_loop length (fuel + 1) st = parse_loop length fuel st' := by
  simp [parse_loop, h, hb]

theorem parse_loop_stop (length : Int) (fuel : Nat) (st : ParseState) (f : Fault)
    (h : (st.pos : Int) ≤ length) (hb : parse_body st = .error f) :
    parse_loop length (fuel + 1) st = .error f := by
  simp [parse_loop, h, hb]

theorem starts_true_word (w : List Nat) (hw : ∀ c ∈ w, in_word c = true) (l : List Nat)
    (pos : Nat) : starts true (w ++ l) pos = starts true l (pos + w.length) := by
  induction w generalizing pos with
  | nil => simp
  | cons c w ih =>
    have hc : in_word c = true := hw c (by simp)
    have hrest : ∀ d ∈ w, in_word d = true := fun d hd => hw d (by simp [hd])
    have e : pos + 1 + w.length = pos + (w.length + 1) := by omega
    show starts true (c :: (w ++ l)) pos = _
    rw [starts, if_pos hc, if_pos rfl, ih hrest, List.length_cons, e]

theorem starts_false_word (c : Nat) (w : List Nat) (hw : ∀ x ∈ c :: w, in_word x = true)
    (l : List Nat) (pos : Nat) :
    starts false (c :: w ++ l) pos = pos :: starts true l (pos + (w.length + 1)) := by
  have hc : in_word c = true := hw c (by simp)
  have hrest : ∀ d ∈ w, in_word d = true := fun d hd => hw d (by simp [hd])
  have e : pos + 1 + w.length = pos + (w.length + 1) := by omega
  show starts false (c :: (w ++ l)) pos = _
  rw [starts, if_pos hc, starts_true_word w hrest, e]
  simp

theorem starts_gap (inside : Bool) (d : Nat) (hd : in_word d = false) (l : List Nat)
    (pos : Nat) : starts inside (d :: l) pos = starts false l (pos + 1) := by
  simp [starts, hd]

theorem blank_out_word (w : List Nat) (hw : ∀ c ∈ w, in_word c = true) : blank_out w = w := by
  induction w with
  | nil => rfl
  | cons c w ih =>
    have hc : in_word c = true := hw c (by simp)
    have hrest : ∀ d ∈ w, in_word d = true := fun d hd => hw d (by simp [hd])
    have hb : is_blank c = false := by
      have := (in_word_iff c).1 hc
      cases h : is_blank c
      · rfl
      · have := (is_blank_iff c).1 h
        omega
    have ih' := ih hrest
    simp only [blank_out] at ih' ⊢
    simp [hb, ih']

theorem blank_out_append (a b : List Nat) : blank_out (a ++ b) = blank_out a ++ blank_out b := by
  simp [blank_out]

theorem blank_out_cons_blank (d : Nat) (hd : is_blank d = true) (l : List Nat) :
    blank_out (d :: l) = END_OF_LINE :: blank_out l := by
  simp [blank_out, hd]

/-- Every list splits into a stretch of word bytes and either nothing or a byte
that is not a word byte followed by the remainder. -/
theorem word_split (l : List Nat) :
    ∃ w r, l = w ++ r ∧ (∀ c ∈ w, in_word c = true) ∧
      (r = [] ∨ ∃ d r', r = d :: r' ∧ in_word d = false) := by
  induction l with
  | nil => exact ⟨[], [], rfl, by simp, Or.inl rfl⟩
  | cons c l ih =>
    cases hc : in_word c with
    | false => exact ⟨[], c :: l, rfl, by simp, Or.inr ⟨c, l, rfl, hc⟩⟩
    | true =>
      obtain ⟨w, r, hl, hw, hr⟩ := ih
      refine ⟨c :: w, r, by simp [hl], ?_, hr⟩
      intro x hx
      rcases List.mem_cons.1 hx with rfl | hx
      · exact hc
      · exact hw x hx


theorem parse_loop_spec (fuel : Nat) : ∀ (rest pre tail : List Nat)
    (fixed free : List (Option Nat)), (∀ c ∈ rest, c ≠ 0) → rest.length < fuel →
    pre.length + rest.length < INT_MAX → fixed.length ≤ pre.length →
    (starts false rest pre.length).length ≤ free.length →
    parse_loop ((pre.length + rest.length : Nat) : Int) fuel
        { argc := fixed.length, pos := pre.length, argv := fixed ++ free,
          line_buff := pre ++ rest ++ END_OF_LINE :: tail } =
      .ok { argc := fixed.length + (starts false rest pre.length).length,
            pos := pre.length + rest.length + 1,
            argv := fixed ++ (starts false rest pre.length).map some
                      ++ free.drop (starts false rest pre.length).length,
            line_buff := pre ++ blank_out rest ++ END_OF_LINE :: tail } := by
  induction fuel with
  | zero => intro rest pre tail fixed free _ hfuel; omega
  | succ fuel ih =>
    intro rest pre tail fixed free hz hfuel hmax hargc hcap
    obtain ⟨w, r, rfl, hw, hr⟩ := word_split rest
    rcases hr with rfl | ⟨d, r', rfl, hd⟩
    · -- the word, if any, ends at the terminator
      simp only [List.length_append, List.length_cons, List.length_nil] at hmax
      have hb := parse_body_word pre w tail 0 hw (by decide) fixed.length (fixed ++ free)
        (by omega) (by omega)
      cases w with
      | nil =>
        simp only [List.append_nil, if_true, List.length_nil, Nat.add_zero] at hb
        rw [List.append_nil, List.append_nil,
          parse_loop_pass _ _ _ _ (by simp) hb, parse_loop_exit _ _ _ (by simp)]
        simp [starts, blank_out]
      | cons c w =>
        have hs : starts false (c :: w ++ []) pre.length = [pre.length] := by
          rw [starts_false_word c w hw]; rfl
        rw [List.append_nil] at hs
        rw [List.append_nil] at hcap ⊢
        rw [hs] at hcap ⊢
        obtain ⟨x, free', rfl⟩ : ∃ x free', free = x :: free' := by
          cases free with
          | nil => simp at hcap
          | cons x free' => exact ⟨x, free', rfl⟩
        rw [if_neg (by simp), store_arg_mid] at hb
        simp only [Except.map] at hb
        rw [parse_loop_pass _ _ _ _ (by simp; omega) hb, parse_loop_exit _ _ _ (by simp)]
        simp [blank_out_word _ hw]
    · -- the word, if any, ends at a separator, and the scan goes on behind it
      simp only [List.length_append, List.length_cons, List.length_nil] at hmax
      have hd0 : d ≠ 0 := hz d (by simp)
      have hblank : is_blank d = true := by
        rcases (not_in_word_iff d).1 hd with h | h
        · exact h
        · exact absurd h hd0
      have hz' : ∀ c ∈ r', c ≠ 0 := fun c hc => hz c (by simp [hc])
      have hb := parse_body_word pre w (r' ++ END_OF_LINE :: tail) d hw hd fixed.length
        (fixed ++ free) (by omega) (by omega)
      have hlen : pre.length + (w ++ d :: r').length = (pre ++ w ++ [END_OF_LINE]).length + r'.length := by
        simp only [List.length_append, List.length_cons, List.length_nil]; omega
      have hbuf : pre ++ (w ++ d :: r') ++ END_OF_LINE :: tail
          = pre ++ w ++ d :: (r' ++ END_OF_LINE :: tail) := by simp
      have hbuf' : pre ++ w ++ END_OF_LINE :: (r' ++ END_OF_LINE :: tail)
          = (pre ++ w ++ [END_OF_LINE]) ++ r' ++ END_OF_LINE :: tail := by simp
      have hpos : pre.length + w.length + 1 = (pre ++ w ++ [END_OF_LINE]).length := by
        simp only [List.length_append, List.length_cons, List.length_nil]
      have hfuel' : r'.length < fuel := by
        simp only [List.length_append, List.length_cons] at hfuel; omega
      have hmax' : (pre ++ w ++ [END_OF_LINE]).length + r'.length < INT_MAX := by
        simp only [List.length_append, List.length_cons, List.length_nil]; omega
      rw [hbuf, hlen]
      rw [hbuf', hpos] at hb
      cases w with
      | nil =>
        have hs : starts false ([] ++ d :: r') pre.length
            = starts false r' (pre ++ [] ++ [END_OF_LINE]).length := by
          simp [starts_gap false d hd]
        rw [hs] at hcap ⊢
        rw [if_pos rfl] at hb
        simp only [] at hb
        rw [parse_loop_pass _ _ _ _
          (by simp; omega) hb,
          ih r' _ tail fixed free hz' hfuel' hmax' (by simp; omega) hcap]
        simp [blank_out_cons_blank d hblank]
      | cons c w =>
        have hs : starts false (c :: w ++ d :: r') pre.length
            = pre.length :: starts false r' (pre ++ c :: w ++ [END_OF_LINE]).length := by
          rw [starts_false_word c w hw, starts_gap true d hd]
          simp [Nat.add_assoc]
        rw [hs] at hcap ⊢
        obtain ⟨x, free', rfl⟩ : ∃ x free', free = x :: free' := by
          cases free with
          | nil => simp at hcap
          | cons x free' => exact ⟨x, free', rfl⟩
        rw [if_neg (by simp), store_arg_mid] at hb
        simp only [Except.map] at hb
        have hfix : fixed.length + 1 = (fixed ++ [some pre.length]).length := by simp
        have hargv : fixed ++ some pre.length :: free' = (fixed ++ [some pre.length]) ++ free' := by
          simp
        rw [hfix, hargv] at hb
        have hcap' : (starts false r' (pre ++ c :: w ++ [END_OF_LINE]).length).length
            ≤ free'.length := by
          simpa using hcap
        rw [parse_loop_pass _ _ _ _
          (by simp; omega) hb,
          ih r' _ tail _ free' hz' hfuel' hmax' (by simp; omega) hcap']
        have hbo : blank_out (c :: w ++ d :: r') = c :: w ++ END_OF_LINE :: blank_out r' := by
          rw [blank_out_append, blank_out_word _ hw, blank_out_cons_blank d hblank]
        rw [hbo]
        simp
        omega

/-! ## `parse_line` on a terminated line -/

theorem strlen_terminated (line tail : List Nat) (hz : ∀ c ∈ line, c ≠ 0) :
    strlen (line ++ END_OF_LINE :: tail) = some line.length := by
  induction line with
  | nil => simp [strlen]
  | cons c line ih =>
    have hc : c ≠ 0 := hz c (by simp)
    have ih' := ih (fun d hd => hz d (by simp [hd]))
    simp [strlen, hc, ih']

theorem parse_line_small (argv : List (Option Nat)) (line tail : List Nat)
    (argument_size : Nat) (hz : ∀ c ∈ line, c ≠ 0) (hlen : line.length < INT_MAX) :
    parse_line argv (line ++ END_OF_LINE :: tail) argument_size =
      match parse_loop ((0 + line.length : Nat) : Int) (line.length + 1)
          { argc := 0, pos := 0, argv := argv,
            line_buff := line ++ END_OF_LINE :: tail } with
      | .error f => .error f
      | .ok st => .ok { argc := st.argc, argv := st.argv, line_buff := st.line_buff } := by
  unfold parse_line
  rw [strlen_terminated line tail hz, Nat.zero_add]
  simp only []
  rw [to_int_small _ (Nat.le_of_lt hlen)]

/-- The result of `parse_line` on any terminated line shorter than `INT_MAX` bytes
whose words fit into `argv`. -/
theorem parse_line_spec (line tail : List Nat) (argv : List (Option Nat)) (argument_size : Nat)
    (hz : ∀ c ∈ line, c ≠ 0) (hlen : line.length < INT_MAX)
    (hcap : (starts false line 0).length ≤ argv.length) :
    parse_line argv (line ++ END_OF_LINE :: tail) argument_size =
      .ok { argc := (starts false line 0).length,
            argv := (starts false line 0).map some ++ argv.drop (starts false line 0).length,
            line_buff := blank_out line ++ END_OF_LINE :: tail } := by
  have h := parse_loop_spec (line.length + 1) line [] tail [] argv hz (by omega)
    (by simpa using hlen) (by simp) hcap
  simp only [List.length_nil, List.nil_append] at h
  rw [parse_line_small argv line tail argument_size hz hlen, h]
  simp

theorem reduceOption_map_some (offs : List Nat) : (offs.map some).reduceOption = offs := by
  induction offs with
  | nil => rfl
  | cons a offs ih => simp [List.reduceOption_cons_of_some, ih]

theorem arg_strings_spec (offs : List Nat) (free : List (Option Nat)) (mem : List Nat) :
    arg_strings { argc := offs.length, argv := offs.map some ++ free, line_buff := mem }
      = offs.map (cstr mem) := by
  simp [arg_strings, List.take_append_eq_append_take, reduceOption_map_some]

theorem starts_run (inside : Bool) (s : List Nat) (hs : is_run s) (hne : s ≠ [])
    (l : List Nat) (pos : Nat) :
    starts inside (s ++ l) pos = starts false l (pos + s.length) := by
  induction s generalizing inside pos with
  | nil => exact absurd rfl hne
  | cons d s ih =>
    have hd : in_word d = false :=
      (not_in_word_iff d).2 (Or.inl ((is_blank_iff d).2 (hs d (by simp))))
    have hs' : is_run s := fun c hc => hs c (by simp [hc])
    show starts inside (d :: (s ++ l)) pos = _
    rw [starts_gap inside d hd]
    cases s with
    | nil => simp
    | cons e s =>
      rw [ih false hs' (by simp)]
      simp only [List.length_cons]
      congr 1
      omega

theorem starts_false_run (s : List Nat) (hs : is_run s) (l : List Nat) (pos : Nat) :
    starts false (s ++ l) pos = starts false l (pos + s.length) := by
  cases s with
  | nil => simp
  | cons d s => exact starts_run false (d :: s) hs (by simp) l pos

theorem blank_out_run (s : List Nat) (hs : is_run s) :
    blank_out s = List.replicate s.length END_OF_LINE := by
  induction s with
  | nil => rfl
  | cons d s ih =>
    have hs' : is_run s := fun c hc => hs c (by simp [hc])
    rw [blank_out_cons_blank d ((is_blank_iff d).2 (hs d (by simp))), ih hs']
    rfl

theorem cstr_word (pre w post : List Nat) (hw : ∀ c ∈ w, c ≠ 0) :
    cstr (pre ++ w ++ END_OF_LINE :: post) pre.length = w := by
  rw [cstr, List.append_assoc, List.drop_left]
  induction w with
  | nil => simp
  | cons c w ih =>
    have hc : c ≠ 0 := hw c (by simp)
    have ih' := ih (fun d hd => hw d (by simp [hd]))
    simp [List.takeWhile_cons, hc]
    simpa using ih'

theorem word_nonzero (w : List Nat) (hw : ∀ c ∈ w, in_word c = true) : ∀ c ∈ w, c ≠ 0 :=
  fun c hc => ((in_word_iff c).1 (hw c hc)).2.2

theorem run_nonzero (s : List Nat) (hs : is_run s) : ∀ c ∈ s, c ≠ 0 := by
  intro c hc
  rcases hs c hc with h | h <;> rw [h] <;> decide


theorem blank_out_length (l : List Nat) : (blank_out l).length = l.length := by
  simp [blank_out]

/-- On a line built from words and runs, the strings found at the word starts in
the blanked-out buffer are the words. -/
theorem words_of_line (ws : List (List Nat × List Nat)) : ∀ (pre tail : List Nat),
    separated ws →
    (starts false (build_line ws) pre.length).map
        (cstr (pre ++ blank_out (build_line ws) ++ END_OF_LINE :: tail))
      = ws.map Prod.fst := by
  induction ws with
  | nil => intro pre tail _; simp [build_line, starts]
  | cons p rest ih =>
    obtain ⟨w, s⟩ := p
    intro pre tail hsep
    obtain ⟨⟨hne, hbytes⟩, hs, hgap, hrest⟩ := hsep
    have hw : ∀ c ∈ w, in_word c = true := fun c hc => (in_word_iff c).2 (hbytes c hc)
    obtain ⟨c, w', rfl⟩ : ∃ c w', w = c :: w' := by
      cases w with
      | nil => exact absurd rfl hne
      | cons c w' => exact ⟨c, w', rfl⟩
    have hwz := word_nonzero _ hw
    cases s with
    | nil =>
      have hr : rest = [] := by
        by_contra h
        exact hgap h rfl
      subst hr
      have hst : starts false (c :: w' ++ []) pre.length = [pre.length] := by
        rw [starts_false_word c w' hw]; rfl
      simp only [build_line, List.append_nil] at hst ⊢
      rw [hst, blank_out_word _ hw]
      have := cstr_word pre (c :: w') tail hwz
      simpa using this
    | cons d s' =>
      have hd : is_blank d = true := (is_blank_iff d).2 (hs d (by simp))
      have hs' : is_run s' := fun x hx => hs x (by simp [hx])
      have hst : starts false (c :: w' ++ (d :: s' ++ build_line rest)) pre.length
          = pre.length :: starts false (build_line rest)
              (pre ++ c :: w' ++ blank_out (d :: s')).length := by
        rw [starts_false_word c w' hw, starts_run true (d :: s') hs (by simp)]
        simp only [List.length_append, List.length_cons, blank_out_length]
      have hbo : blank_out (c :: w' ++ (d :: s' ++ build_line rest))
          = c :: w' ++ (blank_out (d :: s') ++ blank_out (build_line rest)) := by
        rw [blank_out_append, blank_out_append, blank_out_word _ hw]
      have hbuild : build_line ((c :: w', d :: s') :: rest)
          = c :: w' ++ (d :: s' ++ build_line rest) := by
        simp [build_line]
      rw [hbuild, hst, hbo, List.map_cons, List.map_cons]
      congr 1
      · rw [blank_out_cons_blank d hd]
        have := cstr_word pre (c :: w') (blank_out s' ++ blank_out (build_line rest)
          ++ END_OF_LINE :: tail) hwz
        simpa using this
      · have := ih (pre ++ c :: w' ++ blank_out (d :: s')) tail hrest
        simp only [List.append_assoc] at this ⊢
        exact this

theorem build_line_nonzero (ws : List (List Nat × List Nat)) (h : separated ws) :
    ∀ c ∈ build_line ws, c ≠ 0 := by
  induction ws with
  | nil => simp [build_line]
  | cons p rest ih =>
    obtain ⟨w, s⟩ := p
    obtain ⟨⟨_, hbytes⟩, hs, _, hrest⟩ := h
    have hw : ∀ c ∈ w, in_word c = true := fun c hc => (in_word_iff c).2 (hbytes c hc)
    intro c hc
    simp only [build_line, List.mem_append] at hc
    rcases hc with (hc | hc) | hc
    · exact word_nonzero w hw c hc
    · exact run_nonzero s hs c hc
    · exact ih hrest c hc

theorem tokens_run (l : List Nat) (h : is_run l) : starts false l 0 = [] := by
  have := starts_false_run l h [] 0
  simpa [starts] using this

theorem parse_line_run (l tail : List Nat) (argv : List (Option Nat)) (argument_size : Nat)
    (h : is_run l) (hlen : l.length < INT_MAX) :
    parse_line argv (l ++ END_OF_LINE :: tail) argument_size =
      .ok { argc := 0, argv := argv,
            line_buff := List.replicate l.length END_OF_LINE ++ END_OF_LINE :: tail } := by
  have hoff := tokens_run l h
  rw [parse_line_spec l tail argv argument_size (run_nonzero l h) hlen (by simp [hoff]), hoff,
    blank_out_run l h]
  simp

/-! ## What every pass of the loop keeps -/

theorem load_ok (buf : List Nat) (i c : Nat) (h : load buf i = .ok c) : buf[i]? = some c := by
  unfold load at h
  cases hb : buf[i]? with
  | none => rw [hb] at h; cases h
  | some d => rw [hb] at h; injection h with h; rw [h]

theorem store_ok (buf buf' : List Nat) (i c : Nat) (h : store buf i c = .ok buf') :
    buf' = buf.set i c := by
  unfold store at h
  split_ifs at h
  injection h with h
  exact h.symm

theorem store_arg_ok (argv argv' : List (Option Nat)) (i pos : Nat)
    (h : store_arg argv i pos = .ok argv') : i < argv.length ∧ argv' = argv.set i (some pos) := by
  unfold store_arg at h
  split_ifs at h with hi
  injection h with h
  exact ⟨hi, h.symm⟩

theorem incr_eq (i j : Nat) (h : incr i = .ok j) : i < INT_MAX ∧ j = i + 1 := by
  unfold incr at h
  split_ifs at h with hi
  injection h with h
  exact ⟨hi, h.symm⟩

/-- What a pass of the body of the loop that ends well has done. -/
theorem parse_body_ok (st st' : ParseState) (h : parse_body st = .ok st') :
    ∃ c pos d, st.line_buff[st.pos]? = some c ∧
      skip_word (st.line_buff.drop st.pos) st.pos = .ok pos ∧
      st.line_buff[pos]? = some d ∧ pos < INT_MAX ∧ st'.pos = pos + 1 ∧
      (in_word c = true → st.argc < st.argv.length ∧ st.argc < INT_MAX ∧
        st'.argv = st.argv.set st.argc (some st.pos) ∧ st'.argc = st.argc + 1) ∧
      (in_word c = false → st'.argv = st.argv ∧ st'.argc = st.argc) ∧
      (is_blank d = true → st'.line_buff = st.line_buff.set pos END_OF_LINE) ∧
      (is_blank d = false → st'.line_buff = st.line_buff) := by
  unfold parse_body at h
  cases h1 : load st.line_buff st.pos with
  | error f => rw [h1] at h; cases h
  | ok c =>
    rw [h1] at h
    simp only [] at h
    cases h2 : (if in_word c = true then
        (store_arg st.argv st.argc st.pos).bind
          (fun argv => (incr st.argc).map (fun argc => (argv, argc)))
        else Except.ok (st.argv, st.argc)) with
    | error f => rw [h2] at h; cases h
    | ok pair =>
      obtain ⟨argv, argc⟩ := pair
      rw [h2] at h
      simp only [] at h
      cases h3 : skip_word (List.drop st.pos st.line_buff) st.pos with
      | error f => rw [h3] at h; cases h
      | ok pos =>
        rw [h3] at h
        simp only [] at h
        cases h4 : load st.line_buff pos with
        | error f => rw [h4] at h; cases h
        | ok d =>
          rw [h4] at h
          simp only [] at h
          cases h5 : (if is_blank d = true then store st.line_buff pos END_OF_LINE
              else Except.ok st.line_buff) with
          | error f => rw [h5] at h; cases h
          | ok buf =>
            rw [h5] at h
            simp only [] at h
            cases h6 : incr pos with
            | error f => rw [h6] at h; cases h
            | ok pos' =>
              rw [h6] at h
              simp only [] at h
              injection h with h
              subst h
              obtain ⟨hlt, rfl⟩ := incr_eq _ _ h6
              refine ⟨c, pos, d, load_ok _ _ _ h1, rfl, load_ok _ _ _ h4, hlt, rfl,
                ?_, ?_, ?_, ?_⟩
              · intro hc
                rw [if_pos hc] at h2
                cases h7 : store_arg st.argv st.argc st.pos with
                | error f => rw [h7] at h2; cases h2
                | ok a =>
                  rw [h7] at h2
                  cases h8 : incr st.argc with
                  | error f => rw [h8] at h2; cases h2
                  | ok k =>
                    rw [h8] at h2
                    obtain ⟨hk, rfl⟩ := incr_eq _ _ h8
                    obtain ⟨ha, rfl⟩ := store_arg_ok _ _ _ _ h7
                    injection h2 with h2
                    injection h2 with h21 h22
                    exact ⟨ha, hk, h21.symm, h22.symm⟩
              · intro hc
                rw [if_neg (by simp [hc])] at h2
                injection h2 with h2
                injection h2 with h21 h22
                exact ⟨h21.symm, h22.symm⟩
              · intro hd
                rw [if_pos hd] at h5
                exact store_ok _ _ _ _ h5
              · intro hd
                rw [if_neg (by simp [hd])] at h5
                injection h5 with h5
                exact h5.symm

/-- A property that holds when the loop is entered and that every pass of the body
keeps holds when the loop is left, and then `pos` is beyond `length`. -/
theorem parse_loop_invariant (P : ParseState → Prop) (length : Int)
    (hstep : ∀ st st', P st → (st.pos : Int) ≤ length → parse_body st = .ok st' → P st') :
    ∀ (fuel : Nat) (st st' : ParseState), P st → parse_loop length fuel st = .ok st' →
      P st' ∧ length < (st'.pos : Int) := by
  intro fuel
  induction fuel with
  | zero =>
    intro st st' hP h
    unfold parse_loop at h
    split_ifs at h with hle
    injection h with h
    subst h
    exact ⟨hP, by omega⟩
  | succ fuel ih =>
    intro st st' hP h
    unfold parse_loop at h
    split_ifs at h with hle
    · cases hb : parse_body st with
      | error f => rw [hb] at h; cases h
      | ok st1 =>
        rw [hb] at h
        exact ih st1 st' (hstep st st1 hP hle hb) h
    · injection h with h
      subst h
      exact ⟨hP, by omega⟩

/-- Whenever `parse_line` returns, a property that holds of the state in which the
loop is entered and that every pass keeps holds of what is returned. -/
theorem parse_line_invariant (P : ParseState → Prop) (argv : List (Option Nat))
    (buf : List Nat) (argument_size : Nat) (r : ParseResult)
    (h : parse_line argv buf argument_size = .ok r)
    (hinit : P { argc := 0, pos := 0, argv := argv, line_buff := buf })
    (hstep : ∀ n st st', strlen buf = some n → P st → st.pos ≤ n →
      parse_body st = .ok st' → P st') :
    ∃ st, P st ∧ r = { argc := st.argc, argv := st.argv, line_buff := st.line_buff } := by
  unfold parse_line at h
  cases hs : strlen buf with
  | none => rw [hs] at h; cases h
  | some n =>
    rw [hs] at h
    simp only [] at h
    cases hl : parse_loop (to_int n) (n + 1)
        { argc := 0, pos := 0, argv := argv, line_buff := buf } with
    | error f => rw [hl] at h; cases h
    | ok st =>
      rw [hl] at h
      injection h with h
      refine ⟨st, ?_, h.symm⟩
      refine (parse_loop_invariant P (to_int n) ?_ (n + 1) _ st hinit hl).1
      intro a b hP hle hb
      have := to_int_le n
      exact hstep n a b hs hP (by omega) hb

theorem skip_word_bound (mem : List Nat) : ∀ (pos pos' : Nat),
    skip_word mem pos = .ok pos' →
      pos ≤ pos' ∧ (∀ c, mem[0]? = some c → in_word c = true → pos < pos') ∧
        ∀ k, mem[k]? = some END_OF_LINE → pos' ≤ pos + k := by
  induction mem with
  | nil => intro pos pos' h; simp [skip_word] at h
  | cons c mem ih =>
    intro pos pos' h
    by_cases hc : in_word c = true
    · rw [skip_word, if_pos hc] at h
      cases hi : incr pos with
      | error f => rw [hi] at h; cases h
      | ok p =>
        rw [hi] at h
        obtain ⟨_, rfl⟩ := incr_eq _ _ hi
        obtain ⟨h1, _, h2⟩ := ih (pos + 1) pos' h
        refine ⟨by omega, fun _ _ _ => by omega, ?_⟩
        intro k hk
        cases k with
        | zero =>
          simp only [List.getElem?_cons_zero, Option.some.injEq] at hk
          rw [hk] at hc
          exact absurd hc (by decide)
        | succ k =>
          simp only [List.getElem?_cons_succ] at hk
          have := h2 k hk
          omega
    · rw [skip_word, if_neg hc] at h
      injection h with h
      subst h
      refine ⟨Nat.le_refl _, ?_, fun k _ => Nat.le_add_right _ _⟩
      intro d hd hw
      simp only [List.getElem?_cons_zero, Option.some.injEq] at hd
      rw [hd] at hc
      exact absurd hw hc

theorem terminator_at (l tail : List Nat) :
    (l ++ END_OF_LINE :: tail)[l.length]? = some END_OF_LINE := by
  rw [List.getElem?_append_right (Nat.le_refl _)]
  simp

/-- One pass of the loop of `parse_line`, begun at `pos ≤ n` with the terminator at
index `n`: `pos` grows, by two at least when an argument is stored, stays at most
`n + 1` and at most `INT_MAX`, and the terminator stays. -/
theorem parse_body_pos (st st' : ParseState) (n : Nat)
    (hn : st.line_buff[n]? = some END_OF_LINE) (hpos : st.pos ≤ n)
    (h : parse_body st = .ok st') :
    st.pos < st'.pos ∧ st'.pos ≤ n + 1 ∧ st'.pos ≤ INT_MAX ∧
      st'.line_buff[n]? = some END_OF_LINE ∧
      st'.line_buff.length = st.line_buff.length ∧
      (st'.argc = st.argc ∨ (st'.argc = st.argc + 1 ∧ st.pos + 2 ≤ st'.pos)) := by
  obtain ⟨c, pos, d, hc, hskip, hd, hlt, hpos', htrue, hfalse, hset, hsame⟩ :=
    parse_body_ok st st' h
  have hdrop : (List.drop st.pos st.line_buff)[n - st.pos]? = some END_OF_LINE := by
    rw [List.getElem?_drop]
    have : st.pos + (n - st.pos) = n := by omega
    rw [this]
    exact hn
  have hdrop0 : (List.drop st.pos st.line_buff)[0]? = some c := by
    rw [List.getElem?_drop]
    exact hc
  obtain ⟨hb1, hb2, hb3⟩ := skip_word_bound _ _ _ hskip
  have hb4 := hb3 (n - st.pos) hdrop
  refine ⟨by omega, by omega, by omega, ?_, ?_, ?_⟩
  · cases hb : is_blank d with
    | false => rw [hsame hb]; exact hn
    | true =>
      rw [hset hb]
      by_cases hin : pos = n
      · subst hin
        have hlen : pos < st.line_buff.length := (List.getElem?_eq_some_iff.1 hd).1
        rw [List.getElem?_set_self hlen]
      · rw [List.getElem?_set_ne hin]
        exact hn
  · cases hb : is_blank d with
    | false => rw [hsame hb]
    | true => rw [hset hb]; simp
  · cases hw : in_word c with
    | false => exact Or.inl (hfalse hw).2
    | true =>
      have := hb2 c hdrop0 hw
      exact Or.inr ⟨(htrue hw).2.2.2, by omega⟩

theorem strlen_terminator (buf : List Nat) : ∀ n, strlen buf = some n →
    buf[n]? = some END_OF_LINE := by
  induction buf with
  | nil => intro n h; simp [strlen] at h
  | cons c buf ih =>
    intro n h
    by_cases hc : c = 0
    · subst hc
      simp only [strlen, if_true, Option.some.injEq] at h
      subst h
      simp
    · simp only [strlen, hc, if_false] at h
      cases hs : strlen buf with
      | none => simp [hs] at h
      | some m =>
        simp only [hs, Option.map_some', Option.some.injEq] at h
        subst h
        simpa using ih m hs

/-- Whenever `parse_line` returns on a buffer whose first terminator is at index
`n`, twice the count returned is at most `n + 1`. -/
theorem parse_line_count (argv : List (Option Nat)) (buf : List Nat) (argument_size : Nat)
    (r : ParseResult) (n : Nat) (hs : strlen buf = some n)
    (h : parse_line argv buf argument_size = .ok r) : 2 * r.argc ≤ n + 1 := by
  obtain ⟨st, hP, rfl⟩ := parse_line_invariant
    (fun st => 2 * st.argc ≤ st.pos ∧ st.pos ≤ n + 1 ∧ st.line_buff[n]? = some END_OF_LINE)
    argv buf argument_size r h
    ⟨Nat.le_refl _, Nat.zero_le _, strlen_terminator buf n hs⟩
    (fun m a b hm hP hle hb => by
      rw [hs] at hm
      injection hm with hm
      subst hm
      obtain ⟨h1, h2, _, h3, _, h4⟩ := parse_body_pos a b n hP.2.2 hle hb
      refine ⟨?_, h2, h3⟩
      have := hP.1
      rcases h4 with h4 | ⟨h4, h5⟩
      · rw [h4]; omega
      · rw [h4]; omega)
  have := hP.1
  have := hP.2.1
  show 2 * st.argc ≤ n + 1
  omega

/-- Whenever `parse_line` returns on a line of tabs and spaces, however long, it
has stored nothing in `argv` and returns 0. -/
theorem parse_line_run_ok (argv : List (Option Nat)) (l tail : List Nat)
    (argument_size : Nat) (r : ParseResult) (hrun : is_run l)
    (h : parse_line argv (l ++ END_OF_LINE :: tail) argument_size = .ok r) :
    r.argc = 0 ∧ r.argv = argv := by
  have hz : ∀ c ∈ l, c ≠ 0 := fun c hc => by
    rcases hrun c hc with e | e <;> rw [e] <;> decide
  have hs := strlen_terminated l tail hz
  obtain ⟨st, hP, rfl⟩ := parse_line_invariant
    (fun st => st.argc = 0 ∧ st.argv = argv ∧
      ∀ i c, i ≤ l.length → st.line_buff[i]? = some c → in_word c = false)
    argv (l ++ END_OF_LINE :: tail) argument_size r h
    ⟨rfl, rfl, fun i c hi hc => by
      by_cases hlt : i < l.length
      · rw [List.getElem?_append_left hlt] at hc
        have hmem : c ∈ l := by
          obtain ⟨hl, hg⟩ := List.getElem?_eq_some_iff.1 hc
          rw [← hg]
          exact List.getElem_mem hl
        exact (not_in_word_iff c).2 (Or.inl ((is_blank_iff c).2 (hrun c hmem)))
      · have e : i = l.length := by omega
        subst e
        rw [terminator_at] at hc
        injection hc with hc
        subst hc
        rfl⟩
    (fun m a b hm hP hle hb => by
      rw [hs] at hm
      injection hm with hm
      subst hm
      obtain ⟨c, pos, d, hc, _, hd, _, _, _, hfalse, hset, hsame⟩ := parse_body_ok a b hb
      have hw : in_word c = false := hP.2.2 a.pos c hle hc
      obtain ⟨hargv, hargc⟩ := hfalse hw
      refine ⟨by rw [hargc]; exact hP.1, by rw [hargv]; exact hP.2.1, ?_⟩
      intro i x hi hx
      cases hbl : is_blank d with
      | false => rw [hsame hbl] at hx; exact hP.2.2 i x hi hx
      | true =>
        rw [hset hbl] at hx
        by_cases hin : pos = i
        · subst hin
          have hlen : pos < a.line_buff.length := (List.getElem?_eq_some_iff.1 hd).1
          rw [List.getElem?_set_self hlen] at hx
          injection hx with hx
          subst hx
          rfl
        · rw [List.getElem?_set_ne hin] at hx
          exact hP.2.2 i x hi hx)
  exact ⟨hP.1, hP.2.1⟩

theorem load_fault (buf : List Nat) (i : Nat) (f : Fault) (h : load buf i = .error f) :
    f ≠ .fuel := by
  unfold load at h
  cases hb : buf[i]? with
  | none => rw [hb] at h; injection h with h; rw [← h]; exact fun e => Fault.noConfusion e
  | some d => rw [hb] at h; cases h

theorem incr_fault (i : Nat) (f : Fault) (h : incr i = .error f) : f ≠ .fuel := by
  unfold incr at h
  split_ifs at h
  injection h with h
  rw [← h]
  exact fun e => Fault.noConfusion e

theorem skip_word_fault (mem : List Nat) : ∀ (pos : Nat) (f : Fault),
    skip_word mem pos = .error f → f ≠ .fuel := by
  induction mem with
  | nil =>
    intro pos f h
    rw [skip_word] at h
    injection h with h
    rw [← h]
    exact fun e => Fault.noConfusion e
  | cons c mem ih =>
    intro pos f h
    rw [skip_word] at h
    split_ifs at h with hc
    cases hi : incr pos with
    | error g =>
      rw [hi] at h
      injection h with h
      rw [← h]
      exact incr_fault pos g hi
    | ok p =>
      rw [hi] at h
      exact ih p f h

/-- A pass of the body of the loop does not use any unrolling bound. -/
theorem parse_body_fault (st : ParseState) (f : Fault) (h : parse_body st = .error f) :
    f ≠ .fuel := by
  unfold parse_body at h
  cases h1 : load st.line_buff st.pos with
  | error g => rw [h1] at h; injection h with h; rw [← h]; exact load_fault _ _ g h1
  | ok c =>
    rw [h1] at h
    simp only [] at h
    cases h2 : (if in_word c = true then
        (store_arg st.argv st.argc st.pos).bind
          (fun argv => (incr st.argc).map (fun argc => (argv, argc)))
        else Except.ok (st.argv, st.argc)) with
    | error g =>
      rw [h2] at h
      injection h with h
      rw [← h]
      split_ifs at h2 with hc
      cases h7 : store_arg st.argv st.argc st.pos with
      | error g' =>
        rw [h7] at h2
        injection h2 with h2
        rw [← h2]
        unfold store_arg at h7
        split_ifs at h7
        injection h7 with h7
        rw [← h7]
        exact fun e => Fault.noConfusion e
      | ok a =>
        rw [h7] at h2
        cases h8 : incr st.argc with
        | error g' =>
          rw [h8] at h2
          injection h2 with h2
          rw [← h2]
          exact incr_fault _ g' h8
        | ok k => rw [h8] at h2; cases h2
    | ok pair =>
      obtain ⟨argv, argc⟩ := pair
      rw [h2] at h
      simp only [] at h
      cases h3 : skip_word (List.drop st.pos st.line_buff) st.pos with
      | error g => rw [h3] at h; injection h with h; rw [← h]; exact skip_word_fault _ _ g h3
      | ok pos =>
        rw [h3] at h
        simp only [] at h
        cases h4 : load st.line_buff pos with
        | error g => rw [h4] at h; injection h with h; rw [← h]; exact load_fault _ _ g h4
        | ok d =>
          rw [h4] at h
          simp only [] at h
          cases h5 : (if is_blank d = true then store st.line_buff pos END_OF_LINE
              else Except.ok st.line_buff) with
          | error g =>
            rw [h5] at h
            injection h with h
            rw [← h]
            split_ifs at h5 with hd
            unfold store at h5
            split_ifs at h5
            injection h5 with h5
            rw [← h5]
            exact fun e => Fault.noConfusion e
          | ok buf =>
            rw [h5] at h
            simp only [] at h
            cases h6 : incr pos with
            | error g => rw [h6] at h; injection h with h; rw [← h]; exact incr_fault _ g h6
            | ok pos' => rw [h6] at h; cases h

/-- With more passes allowed than `pos` is short of `length + 1`, the loop does not
use up its unrolling bound. -/
theorem parse_loop_fuel (length : Int) : ∀ (fuel : Nat) (st : ParseState),
    length < (st.pos : Int) + fuel → parse_loop length fuel st ≠ .error .fuel := by
  intro fuel
  induction fuel with
  | zero =>
    intro st h
    have h' : ¬ (st.pos : Int) ≤ length := by omega
    rw [parse_loop, if_neg h']
    exact fun e => Except.noConfusion e
  | succ fuel ih =>
    intro st h
    rw [parse_loop]
    split_ifs with hle
    · cases hb : parse_body st with
      | error f =>
        simp only []
        intro e
        injection e with e
        exact parse_body_fault st f hb e
      | ok st' =>
        simp only []
        obtain ⟨c, pos, d, _, hskip, _, _, hpos, _⟩ := parse_body_ok st st' hb
        have := (skip_word_bound _ _ _ hskip).1
        exact ih st' (by rw [hpos]; push_cast; omega)
    · exact fun e => Except.noConfusion e

/-- The unrolling bound of `parse_line` is never used up: the outcome is never
the fault `fuel`. -/
theorem parse_line_fuel (argv : List (Option Nat)) (buf : List Nat) (argument_size : Nat) :
    parse_line argv buf argument_size ≠ .error .fuel := by
  unfold parse_line
  cases hs : strlen buf with
  | none =>
    simp only []
    intro e
    injection e with e
    exact Fault.noConfusion e
  | some n =>
    simp only []
    have := to_int_le n
    have hl := parse_loop_fuel (to_int n) (n + 1)
      { argc := 0, pos := 0, argv := argv, line_buff := buf } (by push_cast; omega)
    cases hp : parse_loop (to_int n) (n + 1)
        { argc := 0, pos := 0, argv := argv, line_buff := buf } with
    | error f =>
      simp only []
      intro e
      injection e with e
      rw [e] at hp
      exact hl hp
    | ok st =>
      simp only []
      exact fun e => Except.noConfusion e

/-! ## Lines that do not fit the `int`s of `parse_line` -/

/-- When `strlen` does not fit the `int` and the conversion leaves `length`
negative, the loop is not entered: `parse_line` returns 0 and has written
nothing. -/
theorem parse_line_wrapped (argv : List (Option Nat)) (buf : List Nat) (argument_size : Nat)
    (n : Nat) (hs : strlen buf = some n) (hneg : to_int n < 0) :
    parse_line argv buf argument_size = .ok { argc := 0, argv := argv, line_buff := buf } := by
  unfold parse_line
  rw [hs]
  simp only []
  rw [parse_loop_exit _ _ _ (by show to_int n < ((0 : Nat) : Int); omega)]

/-- On a line of `INT_MAX` bytes whose words fit into `argv` the loop reaches the
terminator at offset `INT_MAX`, and the `pos++` of that pass overflows. -/
theorem parse_loop_overflow (fuel : Nat) : ∀ (rest pre tail : List Nat)
    (fixed free : List (Option Nat)), (∀ c ∈ rest, c ≠ 0) → rest.length < fuel →
    pre.length + rest.length = INT_MAX → fixed.length ≤ pre.length →
    (starts false rest pre.length).length ≤ free.length →
    parse_loop ((pre.length + rest.length : Nat) : Int) fuel
        { argc := fixed.length, pos := pre.length, argv := fixed ++ free,
          line_buff := pre ++ rest ++ END_OF_LINE :: tail } = .error .int_overflow := by
  induction fuel with
  | zero => intro rest pre tail fixed free _ hfuel; omega
  | succ fuel ih =>
    intro rest pre tail fixed free hz hfuel hmax hargc hcap
    have hI : INT_MAX = 2147483647 := rfl
    obtain ⟨w, r, rfl, hw, hr⟩ := word_split rest
    rcases hr with rfl | ⟨d, r', rfl, hd⟩
    · simp only [List.length_append, List.length_cons, List.length_nil] at hmax
      have hcap' : w = [] ∨
          (fixed.length < (fixed ++ free).length ∧ fixed.length < INT_MAX) := by
        cases w with
        | nil => exact Or.inl rfl
        | cons c w =>
          right
          have hs : starts false (c :: w ++ []) pre.length = [pre.length] := by
            rw [starts_false_word c w hw]; rfl
          rw [hs] at hcap
          simp only [List.length_append, List.length_cons, List.length_nil] at hcap hmax ⊢
          omega
      have hb := parse_body_overflow pre w tail 0 hw (by decide) fixed.length (fixed ++ free)
        (by omega) hcap'
      rw [List.append_nil]
      exact parse_loop_stop _ _ _ _ (by simp) hb
    · simp only [List.length_append, List.length_cons, List.length_nil] at hmax
      have hd0 : d ≠ 0 := hz d (by simp)
      have hz' : ∀ c ∈ r', c ≠ 0 := fun c hc => hz c (by simp [hc])
      have hb := parse_body_word pre w (r' ++ END_OF_LINE :: tail) d hw hd fixed.length
        (fixed ++ free) (by omega) (by omega)
      have hlen : pre.length + (w ++ d :: r').length
          = (pre ++ w ++ [END_OF_LINE]).length + r'.length := by
        simp only [List.length_append, List.length_cons, List.length_nil]; omega
      have hbuf : pre ++ (w ++ d :: r') ++ END_OF_LINE :: tail
          = pre ++ w ++ d :: (r' ++ END_OF_LINE :: tail) := by simp
      have hbuf' : pre ++ w ++ END_OF_LINE :: (r' ++ END_OF_LINE :: tail)
          = (pre ++ w ++ [END_OF_LINE]) ++ r' ++ END_OF_LINE :: tail := by simp
      have hpos : pre.length + w.length + 1 = (pre ++ w ++ [END_OF_LINE]).length := by
        simp only [List.length_append, List.length_cons, List.length_nil]
      have hfuel' : r'.length < fuel := by
        simp only [List.length_append, List.length_cons] at hfuel; omega
      have hmax' : (pre ++ w ++ [END_OF_LINE]).length + r'.length = INT_MAX := by
        simp only [List.length_append, List.length_cons, List.length_nil]; omega
      rw [hbuf, hlen]
      rw [hbuf', hpos] at hb
      cases w with
      | nil =>
        have hs : starts false ([] ++ d :: r') pre.length
            = starts false r' (pre ++ [] ++ [END_OF_LINE]).length := by
          simp [starts_gap false d hd]
        rw [hs] at hcap
        rw [if_pos rfl] at hb
        simp only [] at hb
        rw [parse_loop_pass _ _ _ _ (by simp; omega) hb,
          ih r' _ tail fixed free hz' hfuel' hmax' (by simp; omega) hcap]
      | cons c w =>
        have hs : starts false (c :: w ++ d :: r') pre.length
            = pre.length :: starts false r' (pre ++ c :: w ++ [END_OF_LINE]).length := by
          rw [starts_false_word c w hw, starts_gap true d hd]
          simp [Nat.add_assoc]
        rw [hs] at hcap
        obtain ⟨x, free', rfl⟩ : ∃ x free', free = x :: free' := by
          cases free with
          | nil => simp at hcap
          | cons x free' => exact ⟨x, free', rfl⟩
        rw [if_neg (by simp), store_arg_mid] at hb
        simp only [Except.map] at hb
        have hfix : fixed.length + 1 = (fixed ++ [some pre.length]).length := by simp
        have hargv : fixed ++ some pre.length :: free'
            = (fixed ++ [some pre.length]) ++ free' := by simp
        rw [hfix, hargv] at hb
        have hcap' : (starts false r' (pre ++ c :: w ++ [END_OF_LINE]).length).length
            ≤ free'.length := by
          simpa using hcap
        rw [parse_loop_pass _ _ _ _ (by simp; omega) hb,
          ih r' _ tail _ free' hz' hfuel' hmax' (by simp; omega) hcap']

/-- On a terminated line of exactly `INT_MAX` bytes whose words fit into `argv`,
`parse_line` ends in the overflow of `pos`. -/
theorem parse_line_overflow (line tail : List Nat) (argv : List (Option Nat))
    (argument_size : Nat) (hz : ∀ c ∈ line, c ≠ 0) (hlen : line.length = INT_MAX)
    (hcap : (starts false line 0).length ≤ argv.length) :
    parse_line argv (line ++ END_OF_LINE :: tail) argument_size = .error .int_overflow := by
  have h := parse_loop_overflow (line.length + 1) line [] tail [] argv hz (by omega)
    (by simpa using hlen) (by simp) hcap
  simp only [List.length_nil, List.nil_append, Nat.zero_add] at h
  unfold parse_line
  rw [strlen_terminated line tail hz]
  simp only []
  rw [to_int_small _ (Nat.le_of_eq hlen), h]

theorem long_word_length : long_word.length = 2147483646 := by
  rw [long_word, List.length_cons, List.length_replicate]

theorem long_word_bytes : ∀ c ∈ long_word, c = 97 := by
  intro c hc
  rw [long_word] at hc
  rcases List.mem_cons.1 hc with h | h
  · exact h
  · exact List.eq_of_mem_replicate h

theorem long_word_is_word : is_word long_word := by
  refine ⟨?_, ?_⟩
  · rw [long_word]
    exact List.cons_ne_nil _ _
  · intro c hc
    rw [long_word_bytes c hc]
    decide

theorem long_word_in_word : ∀ c ∈ long_word, in_word c = true := by
  intro c hc
  rw [long_word_bytes c hc]
  decide

theorem long_run_length : long_run.length = INT_MAX := by
  rw [long_run, List.length_cons, List.length_replicate]

theorem long_run_is_run : is_run long_run := by
  intro c hc
  rw [long_run] at hc
  rcases List.mem_cons.1 hc with h | h
  · exact Or.inr h
  · exact Or.inr (List.eq_of_mem_replicate h)

/-! ## `execute` -/

theorem strcmp_eq_zero (a b : List Nat) : strcmp a b = 0 ↔ a = b := by
  unfold strcmp
  by_cases h : a = b
  · simp [h]
  · simp only [h, if_false]
    by_cases h' : a < b <;> simp [h']

theorem execute_loop_miss (argc : Nat) (argv : List (List Nat)) (arg0 : List Nat)
    (table : List cmd_t) (h : ∀ e ∈ table, e.command_name ≠ arg0) :
    execute_loop argc argv arg0 table = (false, []) := by
  induction table with
  | nil => rfl
  | cons e table ih =>
    have he : ¬ strcmp arg0 e.command_name = 0 := by
      rw [strcmp_eq_zero]
      exact fun h' => h e (by simp) h'.symm
    rw [execute_loop, if_neg he]
    exact ih (fun x hx => h x (by simp [hx]))

theorem execute_loop_hit (argc : Nat) (argv : List (List Nat)) (arg0 : List Nat)
    (pre : List cmd_t) (e : cmd_t) (post : List cmd_t)
    (hpre : ∀ x ∈ pre, x.command_name ≠ arg0) (he : e.command_name = arg0) :
    execute_loop argc argv arg0 (pre ++ e :: post)
      = (true, [Event.call e.command argc (some argv)]) := by
  induction pre with
  | nil =>
    have : strcmp arg0 e.command_name = 0 := (strcmp_eq_zero _ _).2 he.symm
    simp [execute_loop, this]
  | cons x pre ih =>
    have hx : ¬ strcmp arg0 x.command_name = 0 := by
      rw [strcmp_eq_zero]
      exact fun h' => hpre x (by simp) h'.symm
    rw [List.cons_append, execute_loop, if_neg hx]
    exact ih (fun y hy => hpre y (by simp [hy]))

theorem printf_plain (format : List Nat) (args : List (List Nat))
    (h : ∀ c ∈ format, c ≠ 37) : printf format args = .ok format := by
  unfold printf
  induction format with
  | nil => simp [printf_from]
  | cons c format ih =>
    have hc : c ≠ 37 := h c (by simp)
    have ih' := ih (fun d hd => h d (by simp [hd]))
    simp [printf_from, hc, ih', Except.map]

/-- The bytes of the diagnostic of line 85 for the token `t`. -/
theorem printf_not_found (t : List Nat) :
    printf (bytes "\"%s\": command not found. Use \"help\" to list all command.\n") [t]
      = .ok (bytes "\"" ++ t
              ++ bytes "\": command not found. Use \"help\" to list all command.\n") := by
  have hfmt : bytes "\"%s\": command not found. Use \"help\" to list all command.\n"
      = 34 :: 37 :: 115
          :: bytes "\": command not found. Use \"help\" to list all command.\n" := by
    decide
  have hplain : ∀ c ∈ bytes "\": command not found. Use \"help\" to list all command.\n",
      c ≠ 37 := by decide
  have hq : bytes "\"" = [34] := by decide
  rw [hfmt, hq]
  generalize bytes "\": command not found. Use \"help\" to list all command.\n" = text at *
  have hp := printf_plain text [] hplain
  unfold printf at hp ⊢
  simp [printf_from, hp, Except.map]

theorem execute_miss (table : List cmd_t) (argc : Nat) (arg0 : List Nat)
    (rest : List (List Nat)) (h : ∀ e ∈ table, e.command_name ≠ arg0) :
    execute table argc (arg0 :: rest)
      = .ok ((bytes "\"" ++ arg0
              ++ bytes "\": command not found. Use \"help\" to list all command.\n").map
              Event.putc) := by
  simp [execute, execute_loop_miss argc (arg0 :: rest) arg0 table h, print,
    printf_not_found, Except.map]

theorem execute_hit (argc : Nat) (arg0 : List Nat) (rest : List (List Nat))
    (pre : List cmd_t) (e : cmd_t) (post : List cmd_t)
    (hpre : ∀ x ∈ pre, x.command_name ≠ arg0) (he : e.command_name = arg0) :
    execute (pre ++ e :: post) argc (arg0 :: rest)
      = .ok [Event.call e.command argc (some (arg0 :: rest))] := by
  simp [execute, execute_loop_hit argc (arg0 :: rest) arg0 pre e post hpre he]

/-- Either an entry with the given name exists, and then there is a first one, or
none does. -/
theorem first_match (table : List cmd_t) (arg0 : List Nat) :
    (∃ pre e post, table = pre ++ e :: post ∧ (∀ x ∈ pre, x.command_name ≠ arg0) ∧
        e.command_name = arg0) ∨ (∀ e ∈ table, e.command_name ≠ arg0) := by
  induction table with
  | nil => right; simp
  | cons x table ih =>
    by_cases hx : x.command_name = arg0
    · left; exact ⟨[], x, table, rfl, by simp, hx⟩
    · rcases ih with ⟨pre, e, post, rfl, hpre, he⟩ | hnone
      · left
        refine ⟨x :: pre, e, post, rfl, ?_, he⟩
        intro y hy
        rcases List.mem_cons.1 hy with rfl | hy
        · exact hx
        · exact hpre y hy
      · right
        intro y hy
        rcases List.mem_cons.1 hy with rfl | hy
        · exact hx
        · exact hnone y hy

theorem print_prompt : print PROMPT [] = .ok (PROMPT.map Event.putc) := by decide

theorem store_at_mid (pre post : List Nat) (c d : Nat) :
    store_at (pre ++ c :: post) (pre.length : Int) d = .ok (pre ++ d :: post) := by
  have h : (0 : Int) ≤ pre.length ∧ (pre.length : Int) < ((pre ++ c :: post).length : Nat) := by
    constructor
    · omega
    · simp only [List.length_append, List.length_cons]; omega
  simp [store_at, h]

theorem byte_cast (c : Nat) (h : c < 256) : ((c : Int) % 256).toNat = c := by
  omega

theorem shell_step_append (pre post : List Nat) (y c : Nat) (hc : c < 256)
    (h13 : c ≠ CARRIAGE_RETURN) (h10 : c ≠ NEW_LINE) (h127 : c ≠ DELETE) :
    shell_step { count := pre.length, line_buff := pre ++ y :: post } c
      = .next { count := pre.length + 1, line_buff := pre ++ c :: post } [c] := by
  have hs : (c : Int) ≠ -1 := by omega
  simp only [shell_step, hs, byte_cast c hc, store_at_mid]
  simp [h13, h10, h127]

theorem shell_step_erase (pre post : List Nat) (y : Nat) :
    shell_step { count := (pre.length : Int) + 1, line_buff := pre ++ y :: post } DELETE
      = .next { count := pre.length, line_buff := pre ++ END_OF_LINE :: post }
          (delete ++ [DELETE]) := by
  have hcount : (pre.length : Int) + 1 - 1 = (pre.length : Int) := by omega
  have hne : ¬ (pre.length : Int) + 1 = 0 := by omega
  simp only [shell_step, hcount, store_at_mid]
  simp [hne]

theorem shell_step_erase_empty (line_buff : List Nat) :
    shell_step { count := 0, line_buff := line_buff } DELETE
      = .next { count := 0, line_buff := line_buff } [] := by
  simp [shell_step]

theorem shell_step_idle (st : EditState) : shell_step st (-1) = .next st [] := by
  simp [shell_step]


/-- Feeding more input to a loop that is still polling. -/
theorem shell_loop_append (first : List Int) :
    ∀ (more : List Int) (st st' : EditState) (ev : List Event),
      shell_loop first st = { events := ev, status := .waiting st' } →
      shell_loop (first ++ more) st
        = { events := ev ++ (shell_loop more st').events,
            status := (shell_loop more st').status } := by
  induction first with
  | nil =>
    intro more st st' ev h
    simp only [shell_loop, LineRun.mk.injEq, LineStatus.waiting.injEq] at h
    obtain ⟨rfl, rfl⟩ := h
    simp
  | cons s first ih =>
    intro more st st' ev h
    simp only [List.cons_append, shell_loop] at h ⊢
    cases hstep : shell_step st s with
    | fault f => simp [hstep] at h
    | stop st1 out => simp [hstep] at h
    | next st1 out =>
      simp only [hstep, LineRun.mk.injEq, List.append_eq] at h ⊢
      obtain ⟨hev, hst⟩ := h
      have hrun : shell_loop first st1
          = { events := (shell_loop first st1).events, status := .waiting st' } := by
        rw [← hst]
      rw [ih more st1 st' _ hrun, ← hev]
      simp

/-- Typing bytes that are appended: each is read, stored and echoed. -/
theorem shell_loop_typed (b : List Nat) :
    ∀ (pre old post : List Nat), old.length = b.length →
      (∀ c ∈ b, c < 256 ∧ c ≠ CARRIAGE_RETURN ∧ c ≠ NEW_LINE ∧ c ≠ DELETE) →
      shell_loop (b.map Int.ofNat) { count := pre.length, line_buff := pre ++ old ++ post }
        = { events := echo b,
            status := .waiting { count := (pre ++ b).length,
                                 line_buff := pre ++ b ++ post } } := by
  induction b with
  | nil =>
    intro pre old post hlen _
    have : old = [] := List.length_eq_zero.1 hlen
    subst this
    simp [shell_loop, echo]
  | cons c b ih =>
    intro pre old post hlen hb
    obtain ⟨y, old', rfl⟩ : ∃ y old', old = y :: old' := by
      cases old with
      | nil => simp at hlen
      | cons y old' => exact ⟨y, old', rfl⟩
    obtain ⟨hc, h13, h10, h127⟩ := hb c (by simp)
    have hstep := shell_step_append pre (old' ++ post) y c hc h13 h10 h127
    have hnext := ih (pre ++ [c]) old' post (by simpa using hlen)
      (fun d hd => hb d (by simp [hd]))
    have e1 : pre ++ y :: old' ++ post = pre ++ y :: (old' ++ post) := by simp
    have e2 : ((pre.length : Int) + 1) = ((pre ++ [c]).length : Nat) := by simp
    have e3 : pre ++ c :: (old' ++ post) = pre ++ [c] ++ old' ++ post := by simp
    simp only [List.map_cons, shell_loop, e1]
    rw [show Int.ofNat c = (c : Int) from rfl, hstep]
    simp only [e2, e3, hnext]
    simp [echo]


theorem shell_step_count (st : EditState) (s : Int) (h : 0 ≤ st.count) :
    match shell_step st s with
    | .next st' _ => 0 ≤ st'.count
    | .stop st' _ => 0 ≤ st'.count
    | .fault _ => True := by
  unfold shell_step
  by_cases h1 : s = -1
  · simpa [h1] using h
  · simp only [ne_eq, h1, not_false_eq_true, if_true]
    by_cases h2 : (s % 256).toNat = CARRIAGE_RETURN ∨ (s % 256).toNat = NEW_LINE
    · simp only [h2, if_true]
      cases store_at st.line_buff st.count END_OF_LINE with
      | error f => simp
      | ok lb => simpa using h
    · simp only [h2, if_false]
      by_cases h3 : (s % 256).toNat = DELETE
      · simp only [h3, if_true]
        by_cases h4 : st.count = 0
        · simp [h4]
        · simp only [h4, if_false]
          cases store_at st.line_buff (st.count - 1) END_OF_LINE with
          | error f => simp
          | ok lb => simp only; omega
      · simp only [h3, if_false]
        cases store_at st.line_buff st.count (s % 256).toNat with
        | error f => simp
        | ok lb => simp only; omega


theorem shell_loop_count (input : List Int) :
    ∀ (st st' : EditState), 0 ≤ st.count →
      ((shell_loop input st).status = .waiting st' ∨
        ∃ rest, (shell_loop input st).status = .done st' rest) →
      0 ≤ st'.count := by
  induction input with
  | nil =>
    intro st st' h hst
    simp only [shell_loop, LineStatus.waiting.injEq, reduceCtorEq, exists_false,
      or_false] at hst
    rw [← hst]; exact h
  | cons s input ih =>
    intro st st' h hst
    have hstep := shell_step_count st s h
    simp only [shell_loop] at hst
    cases hs : shell_step st s with
    | fault f => simp [hs] at hst
    | stop st1 out =>
      rw [hs] at hstep
      simp only [hs, reduceCtorEq, LineStatus.done.injEq, false_or] at hst
      obtain ⟨rest, h1, _⟩ := hst
      rw [← h1]; exact hstep
    | next st1 out =>
      rw [hs] at hstep
      simp only [hs] at hst
      exact ih st1 st' hstep hst

theorem starts_bound (l : List Nat) : ∀ (inside : Bool) (pos : Nat),
    ∀ o ∈ starts inside l pos, pos ≤ o ∧ o < pos + l.length := by
  induction l with
  | nil => intro inside pos o ho; simp [starts] at ho
  | cons c l ih =>
    intro inside pos o ho
    simp only [starts] at ho
    simp only [List.length_cons]
    split_ifs at ho
    · have := ih true (pos + 1) o ho
      omega
    · rcases List.mem_cons.1 ho with rfl | ho
      · omega
      · have := ih true (pos + 1) o ho
        omega
    · have := ih false (pos + 1) o ho
      omega

theorem starts_count (l : List Nat) : ∀ (inside : Bool) (pos : Nat),
    2 * (starts inside l pos).length ≤ l.length + (if inside then 0 else 1) := by
  induction l with
  | nil => intro inside pos; simp [starts]
  | cons c l ih =>
    intro inside pos
    have ht := ih true (pos + 1)
    have hf := ih false (pos + 1)
    simp only [if_true, Bool.false_eq_true, if_false, Nat.add_zero] at ht hf
    simp only [starts, List.length_cons]
    cases inside <;> by_cases hc : in_word c = true <;>
      simp only [hc, if_true, if_false, Bool.false_eq_true, List.length_cons] <;> omega

theorem tokens_count (line : List Nat) : 2 * (tokens line).length ≤ line.length + 1 := by
  have := starts_count line false 0
  simpa [tokens] using this


/-- On a table whose names and help texts hold no `%`, `help` writes, entry after
entry, the name, a newline and a tab, the help text and two newlines. -/
theorem help_plain (table : List cmd_t) (argc : Nat) (argv : Option (List (List Nat)))
    (h : ∀ e ∈ table, (∀ c ∈ e.command_name, c ≠ 37) ∧ (∀ c ∈ e.command_help, c ≠ 37)) :
    help table argc argv
      = .ok (table.flatMap
          (fun e => e.command_name ++ bytes "\n\t" ++ e.command_help ++ bytes "\n\n")) := by
  unfold help
  induction table with
  | nil => rfl
  | cons e table ih =>
    have he := h e (by simp)
    have ih' := ih (fun x hx => h x (by simp [hx]))
    have h1 : printf (bytes "\n\t") [] = .ok (bytes "\n\t") := by decide
    have h2 : printf (bytes "\n\n") [] = .ok (bytes "\n\n") := by decide
    simp only [help_loop, printf_plain _ [] he.1, printf_plain _ [] he.2, h1, h2, ih']
    simp

/-! ## The claims -/

/-- C1, as stated, fails on a line that does not fit the `int` `length`: the line
made of the word of `2^31 - 2` letters `a`, one space and the word `b` is `2^31`
bytes long, `length` becomes negative and the loop is not entered, so `parse_line`
returns 0 where the claim says 2, and leaves `argv` and the buffer as they were. -/
theorem long_line_yields_no_token :
    is_run [] ∧ separated [(long_word, [SPACE]), ([98], [])] ∧
    [(long_word, [SPACE]), ([98], ([] : List Nat))].length ≤ MAX_ARG_COUNT ∧
    ([] ++ build_line [(long_word, [SPACE]), ([98], [])]).length = 2147483648 ∧
    parse_line (List.replicate MAX_ARG_COUNT none)
        ([] ++ build_line [(long_word, [SPACE]), ([98], [])] ++ END_OF_LINE :: [])
        MAX_ARG_COUNT
      = .ok { argc := 0, argv := List.replicate MAX_ARG_COUNT none,
              line_buff :=
                [] ++ build_line [(long_word, [SPACE]), ([98], [])] ++ END_OF_LINE :: [] } := by
  have hsep : separated [(long_word, [SPACE]), ([98], [])] :=
    ⟨long_word_is_word, by simp [is_run], fun _ => by simp,
      by simp [is_word], by simp [is_run], fun h => absurd rfl h, trivial⟩
  have hlen : (build_line [(long_word, [SPACE]), ([98], [])]).length = 2147483648 := by
    rw [build_line, build_line, build_line, List.length_append, List.length_append,
      long_word_length]
    rfl
  refine ⟨by simp [is_run], hsep, by decide, by rw [List.nil_append]; exact hlen, ?_⟩
  rw [List.nil_append]
  have hs := strlen_terminated _ [] (build_line_nonzero _ hsep)
  rw [hlen] at hs
  exact parse_line_wrapped _ _ _ 2147483648 hs (by decide)

/-- C1, amended: for a line shorter than `INT_MAX` bytes made of `k ≤ 32` words,
each followed by a run of tabs and spaces that is non-empty when another word
follows, after an optional leading run, `parse_line` returns `argc = k`, and the
first `k` entries of `argv` point at strings that are exactly the `k` words in
their order. -/
theorem parse_line_words (lead : List Nat) (ws : List (List Nat × List Nat))
    (tail : List Nat) (argv : List (Option Nat)) (hlead : is_run lead) (hws : separated ws)
    (hk : ws.length ≤ MAX_ARG_COUNT) (hargv : argv.length = MAX_ARG_COUNT)
    (hshort : (lead ++ build_line ws).length < INT_MAX) :
    ∃ r, parse_line argv (lead ++ build_line ws ++ END_OF_LINE :: tail) MAX_ARG_COUNT = .ok r ∧
      r.argc = ws.length ∧
      (r.argv.take r.argc).map (Option.map (cstr r.line_buff)) = ws.map (fun p => some p.1) ∧
      arg_strings r = ws.map Prod.fst := by
  have hz : ∀ c ∈ lead ++ build_line ws, c ≠ 0 := by
    intro c hc
    rcases List.mem_append.1 hc with hc | hc
    · exact run_nonzero lead hlead c hc
    · exact build_line_nonzero ws hws c hc
  have hoff : starts false (lead ++ build_line ws) 0
      = starts false (build_line ws) (blank_out lead).length := by
    rw [starts_false_run lead hlead, blank_out_length, Nat.zero_add]
  have hwords := words_of_line ws (blank_out lead) tail hws
  rw [← hoff, ← blank_out_append] at hwords
  have hlen : (starts false (lead ++ build_line ws) 0).length = ws.length := by
    have := congrArg List.length hwords
    simpa using this
  have hspec := parse_line_spec (lead ++ build_line ws) tail argv MAX_ARG_COUNT hz hshort
    (by rw [hlen, hargv]; exact hk)
  refine ⟨_, hspec, hlen, ?_, ?_⟩
  · simp only [List.take_left' (List.length_map _ _), List.map_map]
    have e : (ws.map fun p => some p.1) = (ws.map Prod.fst).map some := by
      rw [List.map_map]; rfl
    rw [e, ← hwords, List.map_map]
    rfl
  · rw [arg_strings_spec, hwords]

/-- C2, as stated, fails on the line of `INT_MAX` spaces: the pass of the loop that
reads the terminator at offset `INT_MAX` ends in `pos++` with `pos = INT_MAX`, an
overflow of the `int`, so `parse_line` does not return 0 there. -/
theorem long_run_overflows :
    is_run long_run ∧ long_run.length = INT_MAX ∧
    parse_line (List.replicate MAX_ARG_COUNT none) (long_run ++ END_OF_LINE :: [])
        MAX_ARG_COUNT
      = .error .int_overflow :=
  ⟨long_run_is_run, long_run_length,
    parse_line_overflow long_run [] _ _ (run_nonzero _ long_run_is_run) long_run_length
      (by rw [tokens_run _ long_run_is_run]; exact Nat.zero_le _)⟩

/-- C2, amended: on a line that is empty or made of spaces and tabs only and is
shorter than `INT_MAX` bytes `parse_line` returns 0, stores nothing in `argv` and
leaves terminators where the tabs and spaces were; on such a line of any length it
returns 0 and stores nothing in `argv` whenever it returns. -/
theorem parse_line_blank (line tail : List Nat) (argv : List (Option Nat))
    (hline : is_run line) :
    (line.length < INT_MAX →
      parse_line argv (line ++ END_OF_LINE :: tail) MAX_ARG_COUNT =
        .ok { argc := 0, argv := argv,
              line_buff := List.replicate line.length END_OF_LINE ++ END_OF_LINE :: tail }) ∧
    (∀ r, parse_line argv (line ++ END_OF_LINE :: tail) MAX_ARG_COUNT = .ok r →
      r.argc = 0 ∧ r.argv = argv) :=
  ⟨fun hshort => parse_line_run line tail argv MAX_ARG_COUNT hline hshort,
   fun r hr => parse_line_run_ok argv line tail MAX_ARG_COUNT r hline hr⟩

theorem parse_line_words_witness :
    ∃ r, parse_line (List.replicate 32 none)
        ([32] ++ build_line [([97, 98], [9, 32]), ([99], [])] ++ END_OF_LINE :: [7])
        MAX_ARG_COUNT = .ok r ∧
      r.argc = [([97, 98], [9, 32]), ([99], ([] : List Nat))].length ∧
      (r.argv.take r.argc).map (Option.map (cstr r.line_buff))
        = [([97, 98], [9, 32]), ([99], [])].map (fun p => some p.1) ∧
      arg_strings r = [([97, 98], [9, 32]), ([99], [])].map Prod.fst :=
  parse_line_words [32] [([97, 98], [9, 32]), ([99], [])] [7] (List.replicate 32 none)
    (by simp [is_run]) (by simp [separated, is_word, is_run])
    (by decide) (by decide) (by decide)

theorem parse_line_blank_witness :
    parse_line (List.replicate 32 none) ([32, 9, 32] ++ END_OF_LINE :: [7]) MAX_ARG_COUNT =
      .ok { argc := 0, argv := List.replicate 32 none,
            line_buff := List.replicate [32, 9, 32].length END_OF_LINE ++ END_OF_LINE :: [7] } :=
  (parse_line_blank [32, 9, 32] [7] (List.replicate 32 none) (by simp [is_run])).1
    (by decide)

/-- C7: in the editing loop of `shell`, whatever input has been read, the count is
not negative (neither while the loop is polling nor when it is left), and a DEL
read at count 0 changes neither the buffer nor the count and writes nothing. -/
theorem count_never_negative :
    (∀ (input : List Int) (st : EditState),
      ((shell_loop input fresh).status = .waiting st ∨
        ∃ rest, (shell_loop input fresh).status = .done st rest) → 0 ≤ st.count) ∧
    (∀ line_buff : List Nat,
      shell_step { count := 0, line_buff := line_buff } DELETE
        = .next { count := 0, line_buff := line_buff } []) :=
  ⟨fun input st h => shell_loop_count input fresh st (Int.le_refl 0) h,
   shell_step_erase_empty⟩

theorem count_never_negative_witness :
    (0 : Int) ≤ (EditState.mk 0 (List.replicate 64 0)).count :=
  count_never_negative.1 [97, 127, 127] (EditState.mk 0 (List.replicate 64 0))
    (Or.inl (by decide))

/-- C9: `help` passes each help text to `printf` as the format itself: on the table
with the single entry `echo` whose help text is `echo %s` the conversion `%s` finds
no argument, so the help text is not what is written. -/
theorem help_format_fault :
    help [cmd_t.mk (bytes "echo") (bytes "echo %s") 1] 0 none = .error Fault.format := by
  decide

/-- C10: `parse_line` never looks at `argument_size`: on the line of 33 one-letter
words `a a ... a` (65 bytes) handed to `exec`, the 33rd word is stored to
`argv[32]`, one entry past the vector of `MAX_ARG_COUNT = 32` entries. -/
theorem argv_overrun (table : List cmd_t) :
    (tokens many_words).length = 33 ∧
    parse_line (List.replicate MAX_ARG_COUNT none) (many_words ++ [END_OF_LINE]) MAX_ARG_COUNT
      = .error (Fault.argv_bounds 32) ∧
    exec table (many_words ++ [END_OF_LINE]) = .error (Fault.argv_bounds 32) := by
  have h : parse_line (List.replicate MAX_ARG_COUNT none) (many_words ++ [END_OF_LINE])
      MAX_ARG_COUNT = .error (Fault.argv_bounds 32) := by decide
  exact ⟨by decide, h, by simp [exec, h]⟩

/-! ## Lines with more words than `argv` holds -/

theorem store_arg_full (fixed : List (Option Nat)) (pos : Nat) :
    store_arg (fixed ++ []) fixed.length pos = .error (.argv_bounds fixed.length) := by
  simp [store_arg]

/-- When the words still to come do not fit into the free entries of `argv`, the
loop ends in the store to the entry just behind the array. -/
theorem parse_loop_overrun (fuel : Nat) : ∀ (rest pre tail : List Nat)
    (fixed free : List (Option Nat)), (∀ c ∈ rest, c ≠ 0) → rest.length < fuel →
    pre.length + rest.length < INT_MAX → fixed.length ≤ pre.length →
    free.length < (starts false rest pre.length).length →
    parse_loop ((pre.length + rest.length : Nat) : Int) fuel
        { argc := fixed.length, pos := pre.length, argv := fixed ++ free,
          line_buff := pre ++ rest ++ END_OF_LINE :: tail } =
      .error (.argv_bounds (fixed.length + free.length)) := by
  induction fuel with
  | zero => intro rest pre tail fixed free _ hfuel; omega
  | succ fuel ih =>
    intro rest pre tail fixed free hz hfuel hmax hargc hcap
    obtain ⟨w, r, rfl, hw, hr⟩ := word_split rest
    rcases hr with rfl | ⟨d, r', rfl, hd⟩
    · simp only [List.length_append, List.length_cons, List.length_nil] at hmax
      have hb := parse_body_word pre w tail 0 hw (by decide) fixed.length (fixed ++ free)
        (by omega) (by omega)
      cases w with
      | nil => simp [starts] at hcap
      | cons c w =>
        have hs : starts false (c :: w ++ []) pre.length = [pre.length] := by
          rw [starts_false_word c w hw]; rfl
        rw [List.append_nil] at hs
        rw [List.append_nil] at hcap ⊢
        rw [hs] at hcap
        have hfree : free = [] := List.length_eq_zero.1 (by simpa using hcap)
        subst hfree
        rw [if_neg (by simp), store_arg_full] at hb
        simp only [Except.map] at hb
        rw [parse_loop_stop _ _ _ _ (by simp; omega) hb]
        simp
    · simp only [List.length_append, List.length_cons, List.length_nil] at hmax
      have hd0 : d ≠ 0 := hz d (by simp)
      have hz' : ∀ c ∈ r', c ≠ 0 := fun c hc => hz c (by simp [hc])
      have hb := parse_body_word pre w (r' ++ END_OF_LINE :: tail) d hw hd fixed.length
        (fixed ++ free) (by omega) (by omega)
      have hlen : pre.length + (w ++ d :: r').length
          = (pre ++ w ++ [END_OF_LINE]).length + r'.length := by
        simp only [List.length_append, List.length_cons, List.length_nil]; omega
      have hbuf : pre ++ (w ++ d :: r') ++ END_OF_LINE :: tail
          = pre ++ w ++ d :: (r' ++ END_OF_LINE :: tail) := by simp
      have hbuf' : pre ++ w ++ END_OF_LINE :: (r' ++ END_OF_LINE :: tail)
          = (pre ++ w ++ [END_OF_LINE]) ++ r' ++ END_OF_LINE :: tail := by simp
      have hpos : pre.length + w.length + 1 = (pre ++ w ++ [END_OF_LINE]).length := by
        simp only [List.length_append, List.length_cons, List.length_nil]
      have hfuel' : r'.length < fuel := by
        simp only [List.length_append, List.length_cons] at hfuel; omega
      have hmax' : (pre ++ w ++ [END_OF_LINE]).length + r'.length < INT_MAX := by
        simp only [List.length_append, List.length_cons, List.length_nil]; omega
      rw [hbuf, hlen]
      rw [hbuf', hpos] at hb
      cases w with
      | nil =>
        have hs : starts false ([] ++ d :: r') pre.length
            = starts false r' (pre ++ [] ++ [END_OF_LINE]).length := by
          simp [starts_gap false d hd]
        rw [hs] at hcap
        rw [if_pos rfl] at hb
        simp only [] at hb
        rw [parse_loop_pass _ _ _ _
          (by simp; omega) hb,
          ih r' _ tail fixed free hz' hfuel' hmax' (by simp; omega) hcap]
      | cons c w =>
        have hs : starts false (c :: w ++ d :: r') pre.length
            = pre.length :: starts false r' (pre ++ c :: w ++ [END_OF_LINE]).length := by
          rw [starts_false_word c w hw, starts_gap true d hd]
          simp [Nat.add_assoc]
        rw [hs] at hcap
        cases free with
        | nil =>
          rw [if_neg (by simp), store_arg_full] at hb
          simp only [Except.map] at hb
          rw [parse_loop_stop _ _ _ _
            (by simp; omega) hb]
          simp
        | cons x free' =>
          rw [if_neg (by simp), store_arg_mid] at hb
          simp only [Except.map] at hb
          have hfix : fixed.length + 1 = (fixed ++ [some pre.length]).length := by simp
          have hargv : fixed ++ some pre.length :: free'
              = (fixed ++ [some pre.length]) ++ free' := by simp
          rw [hfix, hargv] at hb
          have hcap' : free'.length
              < (starts false r' (pre ++ c :: w ++ [END_OF_LINE]).length).length := by
            simpa using hcap
          rw [parse_loop_pass _ _ _ _
            (by simp; omega) hb,
            ih r' _ tail _ free' hz' hfuel' hmax' (by simp; omega) hcap']
          simp
          omega


theorem parse_line_overrun (line tail : List Nat) (argv : List (Option Nat))
    (argument_size : Nat) (hz : ∀ c ∈ line, c ≠ 0) (hlen : line.length < INT_MAX)
    (hcap : argv.length < (starts false line 0).length) :
    parse_line argv (line ++ END_OF_LINE :: tail) argument_size
      = .error (.argv_bounds argv.length) := by
  have h := parse_loop_overrun (line.length + 1) line [] tail [] argv hz (by omega)
    (by simpa using hlen) (by simp) hcap
  simp only [List.length_nil, List.nil_append] at h
  rw [parse_line_small argv line tail argument_size hz hlen, h]
  simp

theorem strlen_split (buf : List Nat) : ∀ n, strlen buf = some n →
    ∃ line tail, buf = line ++ END_OF_LINE :: tail ∧ line.length = n ∧ ∀ c ∈ line, c ≠ 0 := by
  induction buf with
  | nil => intro n h; simp [strlen] at h
  | cons c buf ih =>
    intro n h
    by_cases hc : c = 0
    · subst hc
      simp only [strlen, if_true, Option.some.injEq] at h
      exact ⟨[], buf, rfl, by simpa using h, by simp⟩
    · simp only [strlen, hc, if_false] at h
      cases hs : strlen buf with
      | none => simp [hs] at h
      | some m =>
        obtain ⟨line, tail, rfl, hlen, hz⟩ := ih m hs
        refine ⟨c :: line, tail, rfl, ?_, ?_⟩
        · simp only [hs, Option.map_some', Option.some.injEq] at h
          simp [hlen, h]
        · intro x hx
          rcases List.mem_cons.1 hx with rfl | hx
          · exact hc
          · exact hz x hx

/-- Whenever `parse_line` returns on a buffer of at most `INT_MAX` bytes, that
buffer was a terminated line whose words fit into `argv`, and the result is the one
of `parse_line_spec`. -/
theorem parse_line_ok (argv : List (Option Nat)) (buf : List Nat) (argument_size : Nat)
    (r : ParseResult) (hbuf : buf.length ≤ INT_MAX)
    (h : parse_line argv buf argument_size = .ok r) :
    ∃ line tail, buf = line ++ END_OF_LINE :: tail ∧ (∀ c ∈ line, c ≠ 0) ∧
      (starts false line 0).length ≤ argv.length ∧
      r = { argc := (starts false line 0).length,
            argv := (starts false line 0).map some ++ argv.drop (starts false line 0).length,
            line_buff := blank_out line ++ END_OF_LINE :: tail } := by
  cases hs : strlen buf with
  | none =>
    unfold parse_line at h
    rw [hs] at h
    cases h
  | some n =>
    obtain ⟨line, tail, rfl, _, hz⟩ := strlen_split buf n hs
    have hlen : line.length < INT_MAX := by
      simp only [List.length_append, List.length_cons] at hbuf
      omega
    refine ⟨line, tail, rfl, hz, ?_⟩
    by_cases hcap : (starts false line 0).length ≤ argv.length
    · rw [parse_line_spec line tail argv argument_size hz hlen hcap] at h
      injection h with h
      exact ⟨hcap, h.symm⟩
    · rw [parse_line_overrun line tail argv argument_size hz hlen (by omega)] at h
      cases h

/-- The outcome of `parse_line` on a terminated line shorter than `INT_MAX` bytes
is never a fault of the buffer accesses, of an `int` or of the unrolling bound. -/
theorem parse_line_total (line tail : List Nat) (argv : List (Option Nat))
    (argument_size : Nat) (hz : ∀ c ∈ line, c ≠ 0) (hlen : line.length < INT_MAX) :
    (∃ r, parse_line argv (line ++ END_OF_LINE :: tail) argument_size = .ok r) ∨
      parse_line argv (line ++ END_OF_LINE :: tail) argument_size
        = .error (.argv_bounds argv.length) := by
  by_cases hcap : (starts false line 0).length ≤ argv.length
  · exact Or.inl ⟨_, parse_line_spec line tail argv argument_size hz hlen hcap⟩
  · exact Or.inr (parse_line_overrun line tail argv argument_size hz hlen (by omega))

/-! ## The word starts -/

theorem starts_mem (l : List Nat) : ∀ (inside : Bool) (p o : Nat),
    o ∈ starts inside l p ↔
      ∃ i, o = p + i ∧ (∃ c, l[i]? = some c ∧ in_word c = true) ∧
        ((i = 0 ∧ inside = false) ∨
          ∃ k d, i = k + 1 ∧ l[k]? = some d ∧ in_word d = false) := by
  induction l with
  | nil => intro inside p o; simp [starts]
  | cons c l ih =>
    intro inside p o
    have lift : ∀ b : Bool, (in_word c = true → b = true) → (in_word c = false → b = false) →
        o ∈ starts b l (p + 1) →
        ∃ i, o = p + i ∧ (∃ x, (c :: l)[i]? = some x ∧ in_word x = true) ∧
          ((i = 0 ∧ inside = false) ∨
            ∃ k d, i = k + 1 ∧ (c :: l)[k]? = some d ∧ in_word d = false) := by
      intro b hb1 hb2 h
      obtain ⟨j, rfl, hj, hprev⟩ := (ih b (p + 1) o).1 h
      refine ⟨j + 1, by omega, by simpa using hj, Or.inr ?_⟩
      rcases hprev with ⟨rfl, hf⟩ | ⟨k, d, rfl, hk, hd⟩
      · refine ⟨0, c, rfl, by simp, ?_⟩
        cases hc : in_word c with
        | false => rfl
        | true => rw [hb1 hc] at hf; cases hf
      · exact ⟨k + 1, d, rfl, by simpa using hk, hd⟩
    constructor
    · intro h
      simp only [starts] at h
      by_cases hc : in_word c = true
      · rw [if_pos hc] at h
        cases inside with
        | true =>
          simp only [if_true] at h
          exact lift true (fun _ => rfl) (fun h' => by rw [hc] at h'; cases h') h
        | false =>
          simp only [Bool.false_eq_true, if_false, List.mem_cons] at h
          rcases h with rfl | h
          · exact ⟨0, rfl, ⟨c, by simp, hc⟩, Or.inl ⟨rfl, rfl⟩⟩
          · exact lift true (fun _ => rfl) (fun h' => by rw [hc] at h'; cases h') h
      · rw [if_neg hc] at h
        exact lift false (fun h' => absurd h' hc) (fun _ => rfl) h
    · rintro ⟨i, rfl, ⟨x, hx, hxw⟩, hprev⟩
      cases i with
      | zero =>
        simp only [List.getElem?_cons_zero, Option.some.injEq] at hx
        subst hx
        rcases hprev with ⟨_, rfl⟩ | ⟨k, d, hk, _⟩
        · simp [starts, hxw]
        · omega
      | succ j =>
        simp only [List.getElem?_cons_succ] at hx
        have hrec : ∀ b : Bool, (in_word c = false → b = false) →
            p + (j + 1) ∈ starts b l (p + 1) := by
          intro b hb
          refine (ih b (p + 1) _).2 ⟨j, by omega, ⟨x, hx, hxw⟩, ?_⟩
          rcases hprev with ⟨h0, _⟩ | ⟨k, d, hk, hkd, hd⟩
          · omega
          · have hk' : k = j := by omega
            subst hk'
            cases k with
            | zero =>
              simp only [List.getElem?_cons_zero, Option.some.injEq] at hkd
              subst hkd
              exact Or.inl ⟨rfl, hb hd⟩
            | succ k' =>
              right
              exact ⟨k', d, rfl, by simpa using hkd, hd⟩
        simp only [starts]
        by_cases hc : in_word c = true
        · have hmem := hrec true (fun h' => by rw [hc] at h'; cases h')
          rw [if_pos hc]
          cases inside with
          | true => simpa using hmem
          | false => simp [hmem]
        · rw [if_neg hc]
          exact hrec false (fun _ => rfl)


theorem starts_sorted (l : List Nat) : ∀ (inside : Bool) (p : Nat),
    (starts inside l p).Pairwise (· < ·) := by
  induction l with
  | nil => intro inside p; simp [starts]
  | cons c l ih =>
    intro inside p
    simp only [starts]
    split_ifs
    · exact ih true (p + 1)
    · refine List.pairwise_cons.2 ⟨?_, ih true (p + 1)⟩
      intro o ho
      have := (starts_bound l true (p + 1) o ho).1
      omega
    · exact ih false (p + 1)

/-- In the blanked-out buffer the string at an offset of the line is the word of
the line at that offset. -/
theorem cstr_blank_out (l tail : List Nat) (off : Nat) (hz : ∀ c ∈ l, c ≠ 0)
    (hoff : off ≤ l.length) :
    cstr (blank_out l ++ END_OF_LINE :: tail) off = word_at l off := by
  have hdrop : (blank_out l ++ END_OF_LINE :: tail).drop off
      = blank_out (l.drop off) ++ END_OF_LINE :: tail := by
    rw [List.drop_append_of_le_length (by rw [blank_out_length]; exact hoff)]
    simp [blank_out, List.map_drop]
  have hz' : ∀ c ∈ l.drop off, c ≠ 0 := fun c hc => hz c (List.mem_of_mem_drop hc)
  rw [cstr, hdrop, word_at]
  generalize l.drop off = m at hz'
  induction m with
  | nil => simp [blank_out]
  | cons c m ih =>
    have hc : c ≠ 0 := hz' c (by simp)
    have ih' := ih (fun d hd => hz' d (by simp [hd]))
    by_cases hb : is_blank c = true
    · have hb' := (is_blank_iff c).1 hb
      rw [blank_out_cons_blank c hb]
      rcases hb' with h | h <;> subst h <;> simp [List.takeWhile_cons]
    · have hw : c ≠ 9 ∧ c ≠ 32 ∧ c ≠ 0 := by
        have := (is_blank_iff c).not.1 hb
        omega
      have e : blank_out (c :: m) = c :: blank_out m := by
        simp [blank_out, hb]
      rw [e]
      simp only [List.cons_append, List.takeWhile_cons]
      simp only [ne_eq, hc, not_false_eq_true, hw, and_self, decide_True, if_true]
      rw [← ih']

/-! ## Reads that find no byte -/

theorem calls_append (a b : List Event) : calls (a ++ b) = calls a ++ calls b := by
  induction a with
  | nil => rfl
  | cons e a ih => cases e <;> simp [calls, ih]

theorem without_idle_append (a b : List Event) :
    without_idle (a ++ b) = without_idle a ++ without_idle b := by
  simp [without_idle]

theorem without_idle_idle (ev : List Event) :
    without_idle (Event.getc (-1) :: ev) = without_idle ev := by
  simp [without_idle]

theorem without_idle_keep (e : Event) (ev : List Event) (h : e ≠ Event.getc (-1)) :
    without_idle (e :: ev) = e :: without_idle ev := by
  simp [without_idle, h]

theorem without_idle_putc (l : List Nat) :
    without_idle (l.map Event.putc) = l.map Event.putc := by
  induction l with
  | nil => rfl
  | cons c l ih => rw [List.map_cons, without_idle_keep _ _ (by simp), ih]

theorem output_without_idle (ev : List Event) : output (without_idle ev) = output ev := by
  induction ev with
  | nil => rfl
  | cons e ev ih =>
    by_cases he : e = Event.getc (-1)
    · subst he
      rw [without_idle_idle, ih]
      rfl
    · rw [without_idle_keep e ev he]
      cases e <;> simp [output, ih]

theorem calls_without_idle (ev : List Event) : calls (without_idle ev) = calls ev := by
  induction ev with
  | nil => rfl
  | cons e ev ih =>
    by_cases he : e = Event.getc (-1)
    · subst he
      rw [without_idle_idle, ih]
      rfl
    · rw [without_idle_keep e ev he]
      cases e <;> simp [calls, ih]

/-- Leaving out the reads that find no byte leaves out their `getc` events and
nothing else. -/
theorem shell_loop_bytes_read (input : List Int) : ∀ (st : EditState),
    shell_loop (bytes_read input) st
      = { events := without_idle (shell_loop input st).events,
          status := (shell_loop input st).status.bytes_read } := by
  induction input with
  | nil => intro st; simp [bytes_read, shell_loop, without_idle, LineStatus.bytes_read]
  | cons s input ih =>
    intro st
    by_cases hs : s = -1
    · subst hs
      have hb : bytes_read (-1 :: input) = bytes_read input := by simp [bytes_read]
      rw [hb, ih st]
      simp only [shell_loop, shell_step_idle, List.map_nil, List.cons_append, List.nil_append,
        without_idle_idle]
    · have hb : bytes_read (s :: input) = s :: bytes_read input := by
        simp [bytes_read, hs]
      have hk : Event.getc s ≠ Event.getc (-1) := by simpa using hs
      rw [hb]
      simp only [shell_loop]
      cases hstep : shell_step st s with
      | fault f =>
        simp only [without_idle_keep _ _ hk]
        rfl
      | stop st1 out =>
        simp only [without_idle_keep _ _ hk, without_idle_putc]
        rfl
      | next st1 out =>
        simp only [ih st1, List.cons_append, without_idle_keep _ _ hk, without_idle_append,
          without_idle_putc]


theorem execute_without_idle (table : List cmd_t) (argc : Nat) (argv : List (List Nat))
    (ev : List Event) (h : execute table argc argv = .ok ev) : without_idle ev = ev := by
  cases argv with
  | nil => simp [execute] at h
  | cons arg0 rest =>
    rcases first_match table arg0 with ⟨pre, x, post, rfl, hpre, hx⟩ | hnone
    · rw [execute_hit argc arg0 rest pre x post hpre hx] at h
      injection h with h
      subst h
      rw [without_idle_keep _ _ (by simp)]
      rfl
    · rw [execute_miss table argc arg0 rest hnone] at h
      injection h with h
      subst h
      exact without_idle_putc _

theorem without_idle_cons_putc (c : Nat) (ev : List Event) :
    without_idle (Event.putc c :: ev) = Event.putc c :: without_idle ev :=
  without_idle_keep _ _ (by simp)

theorem shell_bytes_read (table : List cmd_t) (input : List Int) :
    shell table (bytes_read input)
      = { events := without_idle (shell table input).events,
          status := (shell table input).status.bytes_read } := by
  have hp := without_idle_cons_putc
  simp only [shell, print_prompt, shell_loop_bytes_read]
  cases hst : (shell_loop input
      { count := 0, line_buff := List.replicate LINE_BUFF_SIZE 0 }).status with
  | fault f => simp [LineStatus.bytes_read, Status.bytes_read, without_idle_append, hp]
  | waiting st => simp [LineStatus.bytes_read, Status.bytes_read, without_idle_append, hp]
  | done st rest =>
    simp only [LineStatus.bytes_read]
    cases hparse : parse_line (List.replicate MAX_ARG_COUNT none) st.line_buff MAX_ARG_COUNT with
    | error f => simp [Status.bytes_read, without_idle_append, hp]
    | ok p =>
      by_cases hargc : p.argc > 0
      · simp only [hargc, if_true]
        cases hexec : execute table p.argc (arg_strings p) with
        | error f => simp [Status.bytes_read, without_idle_append, hp]
        | ok done =>
          simp [Status.bytes_read, without_idle_append, hp,
            execute_without_idle table _ _ done hexec]
      · simp [hargc, Status.bytes_read, without_idle_append, hp]

/-! ## Tokens are words -/

theorem starts_word_start (l : List Nat) (off : Nat) :
    off ∈ starts false l 0 ↔ word_start l off := by
  rw [starts_mem l false 0 off]
  constructor
  · rintro ⟨i, rfl, ⟨c, hc, hw⟩, hprev⟩
    rw [Nat.zero_add]
    refine ⟨⟨c, hc, (in_word_iff c).1 hw⟩, ?_⟩
    rcases hprev with ⟨h0, _⟩ | ⟨k, d, hk, hkd, hd⟩
    · exact Or.inl h0
    · refine Or.inr ⟨k, d, hk, hkd, ?_⟩
      rcases (not_in_word_iff d).1 hd with h | h
      · rcases (is_blank_iff d).1 h with h | h
        · exact Or.inl h
        · exact Or.inr (Or.inl h)
      · exact Or.inr (Or.inr h)
  · rintro ⟨⟨c, hc, hw⟩, hprev⟩
    refine ⟨off, by omega, ⟨c, hc, (in_word_iff c).2 hw⟩, ?_⟩
    rcases hprev with h0 | ⟨k, d, hk, hkd, hd⟩
    · exact Or.inl ⟨h0, rfl⟩
    · refine Or.inr ⟨k, d, hk, hkd, ?_⟩
      rw [not_in_word_iff, is_blank_iff]
      rcases hd with h | h | h
      · exact Or.inl (Or.inl h)
      · exact Or.inl (Or.inr h)
      · exact Or.inr h

theorem store_at_full (buf : List Nat) (c : Nat) :
    store_at buf (buf.length : Int) c = .error (.line_buff_bounds buf.length) := by
  simp [store_at]

/-- With the buffer full, every byte read except DEL makes the loop store behind
the buffer. -/
theorem shell_step_full (buf : List Nat) (s : Int) (hs : s ≠ -1)
    (hdel : (s % 256).toNat ≠ DELETE) :
    shell_step { count := buf.length, line_buff := buf } s
      = .fault (.line_buff_bounds buf.length) := by
  simp only [shell_step, hs, ne_eq, not_false_eq_true, if_true, store_at_full, hdel, if_false]
  split_ifs <;> rfl

theorem shell_loop_full (b : List Nat) (s : Int) (rest : List Int)
    (hlen : b.length = LINE_BUFF_SIZE)
    (hb : ∀ c ∈ b, c < 256 ∧ c ≠ CARRIAGE_RETURN ∧ c ≠ NEW_LINE ∧ c ≠ DELETE)
    (hs : s ≠ -1) (hdel : (s % 256).toNat ≠ DELETE) :
    shell_loop (b.map Int.ofNat ++ s :: rest) fresh
      = { events := echo b ++ [Event.getc s],
          status := .fault (.line_buff_bounds LINE_BUFF_SIZE) } := by
  have hfresh : fresh = EditState.mk (([] : List Nat).length : Int)
      ([] ++ List.replicate b.length 0 ++ []) := by
    rw [hlen]; rfl
  have htyped := shell_loop_typed b [] (List.replicate b.length 0) [] (by simp) hb
  rw [← hfresh] at htyped
  rw [shell_loop_append _ _ _ _ _ htyped]
  have hstep := shell_step_full b s hs hdel
  rw [hlen] at hstep
  simp only [List.nil_append, List.append_nil, shell_loop, hlen, hstep]

/-! ## Parsing the buffer a second time -/

theorem tokens_word (w : List Nat) (hw : ∀ c ∈ w, in_word c = true) (hne : w ≠ []) :
    starts false w 0 = [0] := by
  obtain ⟨c, w', rfl⟩ : ∃ c w', w = c :: w' := by
    cases w with
    | nil => exact absurd rfl hne
    | cons c w' => exact ⟨c, w', rfl⟩
  have := starts_false_word c w' hw [] 0
  rw [List.append_nil] at this
  rw [this]
  rfl

theorem blank_out_getElem (l tail : List Nat) (i c : Nat)
    (h : (l ++ END_OF_LINE :: tail)[i]? = some c) :
    (blank_out l ++ END_OF_LINE :: tail)[i]?
      = some (if i < l.length ∧ (c = TAB ∨ c = SPACE) then END_OF_LINE else c) := by
  by_cases hi : i < l.length
  · rw [List.getElem?_append_left hi] at h
    rw [List.getElem?_append_left (by rw [blank_out_length]; exact hi)]
    simp only [blank_out, List.getElem?_map, h, Option.map_some']
    by_cases hb : is_blank c = true
    · have := (is_blank_iff c).1 hb
      simp [hb, hi, this]
    · have := (is_blank_iff c).not.1 hb
      simp [hb, this]
  · have hle : l.length ≤ i := by omega
    rw [List.getElem?_append_right hle] at h
    rw [List.getElem?_append_right (by rw [blank_out_length]; exact hle), blank_out_length, h]
    simp [hi]

/-- Every state at the head of a pass of the loop of `parse_line` has `pos` at
most `n + 1` and the terminator still at index `n`. -/
theorem parse_reaches_bound (n : Nat) (init st : ParseState)
    (hn : init.line_buff[n]? = some END_OF_LINE) (hpos : init.pos ≤ n + 1)
    (h : parse_reaches (n : Int) init st) :
    st.pos ≤ n + 1 ∧ st.line_buff[n]? = some END_OF_LINE := by
  induction h with
  | start => exact ⟨hpos, hn⟩
  | pass a b _ hle hbody ih =>
    have := parse_body_pos a b n ih.2 (by omega) hbody
    exact ⟨this.2.1, this.2.2.2.1⟩

/-- C11: the editing loop never compares `count` with `LINE_BUFF_SIZE`: after 64
bytes `a` the next byte `a` is stored to `line_buff[64]`, and a carriage return
read instead makes the terminator be written to `line_buff[64]`, both behind the
64-byte buffer. -/
theorem line_buff_overrun :
    shell_loop ((List.replicate 65 97).map Int.ofNat) fresh
      = { events := echo (List.replicate 64 97) ++ [Event.getc 97],
          status := .fault (.line_buff_bounds 64) } ∧
    shell_loop ((List.replicate 64 97).map Int.ofNat ++ [13]) fresh
      = { events := echo (List.replicate 64 97) ++ [Event.getc 13],
          status := .fault (.line_buff_bounds 64) } :=
  ⟨shell_loop_full (List.replicate 64 97) 97 [] rfl (by decide) (by decide) (by decide),
   shell_loop_full (List.replicate 64 97) 13 [] rfl (by decide) (by decide) (by decide)⟩

/-- C13: a DEL read with one byte in the buffer removes that byte, but the bytes
written for it are backspace, space, backspace and then the DEL byte itself: the
`putc(c)` of line 136 is reached after the erase as well. -/
theorem erase_echoes_delete :
    shell_step { count := 1, line_buff := 97 :: List.replicate 63 0 } DELETE
      = .next { count := 0, line_buff := List.replicate 64 0 }
          [BACK_SPACE, SPACE, BACK_SPACE, DELETE] ∧
    output (shell_loop [97, 127] fresh).events = [97, 8, 32, 8, 127] := by
  decide

/-- C14, as stated, fails: a backspace byte read with `a` in the buffer is stored
behind the `a` and echoed, which is not what DEL does there, and read with an
empty buffer it is stored and echoed as well. -/
theorem backspace_is_appended :
    shell_step { count := 1, line_buff := 97 :: List.replicate 63 0 } BACK_SPACE
      = .next { count := 2, line_buff := 97 :: BACK_SPACE :: List.replicate 62 0 }
          [BACK_SPACE] ∧
    shell_step { count := 1, line_buff := 97 :: List.replicate 63 0 } BACK_SPACE
      ≠ shell_step { count := 1, line_buff := 97 :: List.replicate 63 0 } DELETE ∧
    shell_step fresh BACK_SPACE
      = .next { count := 1, line_buff := BACK_SPACE :: List.replicate 63 0 } [BACK_SPACE] := by
  decide

/-- C14, amended: DEL is the only erase byte of the editing loop.  Every `getc`
result other than `-1` whose byte is none of carriage return, newline and DEL (the
backspace byte 0x08 is one of them) is an ordinary byte: with room left in the
buffer it is stored at the write index, the count grows by one and the byte is
echoed, whether the buffer is empty or not; DEL read with a byte in the buffer
takes the last buffered byte away. -/
theorem backspace_is_ordinary (pre post : List Nat) (y : Nat) (s : Int) (hs : s ≠ -1)
    (h13 : (s % 256).toNat ≠ CARRIAGE_RETURN) (h10 : (s % 256).toNat ≠ NEW_LINE)
    (h127 : (s % 256).toNat ≠ DELETE) :
    shell_step { count := pre.length, line_buff := pre ++ y :: post } s
      = .next { count := pre.length + 1, line_buff := pre ++ (s % 256).toNat :: post }
          [(s % 256).toNat] ∧
    ∃ out, shell_step { count := (pre.length : Int) + 1, line_buff := pre ++ y :: post }
        DELETE
      = .next { count := pre.length, line_buff := pre ++ END_OF_LINE :: post } out := by
  refine ⟨?_, _, shell_step_erase pre post y⟩
  have hs' : ¬ s = -1 := hs
  simp only [shell_step, store_at_mid]
  simp [hs', h13, h10, h127]

/-- C14, amended, at the backspace byte read behind an `a`, and at the byte 21 read
into the empty buffer. -/
theorem backspace_is_ordinary_witness :
    (shell_step { count := 1, line_buff := 97 :: List.replicate 63 0 } BACK_SPACE
      = .next { count := 2, line_buff := 97 :: BACK_SPACE :: List.replicate 62 0 }
          [BACK_SPACE] ∧
     ∃ out, shell_step { count := 2, line_buff := 97 :: List.replicate 63 0 } DELETE
      = .next { count := 1, line_buff := 97 :: 0 :: List.replicate 62 0 } out) ∧
    (shell_step fresh 21
      = .next { count := 1, line_buff := 21 :: List.replicate 63 0 } [21] ∧
     ∃ out, shell_step { count := 1, line_buff := List.replicate 64 0 } DELETE
      = .next { count := 0, line_buff := List.replicate 64 0 } out) :=
  ⟨backspace_is_ordinary [97] (List.replicate 62 0) 0 BACK_SPACE (by decide) (by decide)
     (by decide) (by decide),
   backspace_is_ordinary [] (List.replicate 63 0) 0 21 (by decide) (by decide)
     (by decide) (by decide)⟩

/-- C15: a `getc` that finds no byte changes neither the buffer nor the count and
writes nothing; so leaving the results `-1` out of any input changes the events of
the editing loop only by their `getc` events, leaves the state handed to
`parse_line` as it is, and leaves the bytes written and the handlers called by
`shell` as they are. -/
theorem idle_reads_invisible (table : List cmd_t) (input : List Int) (st : EditState) :
    shell_step st (-1) = .next st [] ∧
    shell_loop (bytes_read input) st
      = { events := without_idle (shell_loop input st).events,
          status := (shell_loop input st).status.bytes_read } ∧
    output (shell_loop (bytes_read input) st).events = output (shell_loop input st).events ∧
    output (shell table (bytes_read input)).events = output (shell table input).events ∧
    calls (shell table (bytes_read input)).events = calls (shell table input).events ∧
    (shell table (bytes_read input)).status = (shell table input).status.bytes_read := by
  refine ⟨shell_step_idle st, shell_loop_bytes_read input st, ?_, ?_, ?_, ?_⟩
  · rw [shell_loop_bytes_read, output_without_idle]
  · rw [shell_bytes_read, output_without_idle]
  · rw [shell_bytes_read, calls_without_idle]
  · rw [shell_bytes_read]

/-- C16, as stated, fails on the line of `INT_MAX` letters `a`, one word that fits
into `argv`: the pass of the loop that scans the word up to the terminator at
offset `INT_MAX` ends in `pos++` with `pos = INT_MAX`, an overflow of the `int`, so
`parse_line` returns no count there. -/
theorem long_word_overflows :
    (∀ c ∈ long_word ++ [97], c ≠ END_OF_LINE) ∧ (long_word ++ [97]).length = INT_MAX ∧
    (starts false (long_word ++ [97]) 0).length = 1 ∧
    parse_line (List.replicate MAX_ARG_COUNT none) (long_word ++ [97] ++ END_OF_LINE :: [])
        MAX_ARG_COUNT
      = .error .int_overflow := by
  have hw : ∀ c ∈ long_word ++ [97], in_word c = true := by
    intro c hc
    rcases List.mem_append.1 hc with h | h
    · exact long_word_in_word c h
    · rw [List.mem_singleton.1 h]
      decide
  have hlen : (long_word ++ [97]).length = INT_MAX := by
    rw [List.length_append, long_word_length]
    rfl
  have hne : long_word ++ [97] ≠ [] := by
    rw [long_word]
    exact List.cons_ne_nil _ _
  have hs : (starts false (long_word ++ [97]) 0).length = 1 := by
    rw [tokens_word _ hw hne]
    rfl
  exact ⟨word_nonzero _ hw, hlen, hs,
    parse_line_overflow _ [] _ _ (word_nonzero _ hw) hlen (by rw [hs]; decide)⟩

/-- C16, amended: on a terminated line of `n` bytes a `parse_line` that returns
gives at most `(n + 1) / 2` tokens, whatever `n` is; when `n < INT_MAX` and `argv`
has `(n + 1) / 2` entries it does return, with as many tokens as the line has
words; so for a line of at most 63 bytes and the `argv` of `MAX_ARG_COUNT = 32`
entries it returns at most 32 tokens and stores nothing behind `argv`. -/
theorem token_count_bound (l tail : List Nat) (argv : List (Option Nat))
    (hz : ∀ c ∈ l, c ≠ END_OF_LINE) :
    (∀ r, parse_line argv (l ++ END_OF_LINE :: tail) MAX_ARG_COUNT = .ok r →
        r.argc ≤ (l.length + 1) / 2) ∧
    (l.length < INT_MAX → (l.length + 1) / 2 ≤ argv.length →
        ∃ r, parse_line argv (l ++ END_OF_LINE :: tail) MAX_ARG_COUNT = .ok r ∧
          r.argc = (tokens l).length ∧ r.argc ≤ (l.length + 1) / 2) ∧
    (l.length ≤ LINE_BUFF_SIZE - 1 → argv.length = MAX_ARG_COUNT →
        ∃ r, parse_line argv (l ++ END_OF_LINE :: tail) MAX_ARG_COUNT = .ok r ∧
          r.argc ≤ MAX_ARG_COUNT ∧ r.argv.length = MAX_ARG_COUNT) := by
  have hcount := starts_count l false 0
  simp only [Bool.false_eq_true, if_false] at hcount
  have hfit : ∀ k, (l.length + 1) / 2 ≤ k → (starts false l 0).length ≤ k := by
    intro k hk; omega
  refine ⟨?_, ?_, ?_⟩
  · intro r hr
    have := parse_line_count argv _ MAX_ARG_COUNT r l.length (strlen_terminated l tail hz) hr
    omega
  · intro hshort hcap
    exact ⟨_, parse_line_spec l tail argv _ hz hshort (hfit _ hcap), by simp [tokens],
      by simp only; omega⟩
  · intro hlen hargv
    have hlen' : l.length ≤ 63 := hlen
    have hargv' : argv.length = 32 := hargv
    have hcap : (starts false l 0).length ≤ argv.length := by omega
    refine ⟨_, parse_line_spec l tail argv _ hz (lt_INT_MAX _ (by omega)) hcap, ?_, ?_⟩
    · show (starts false l 0).length ≤ 32
      omega
    · simp only [List.length_append, List.length_map, List.length_drop]
      omega

theorem token_count_bound_witness :
    (∃ r, parse_line (List.replicate 32 none) (bytes "a b c" ++ END_OF_LINE :: [7])
        MAX_ARG_COUNT = .ok r ∧ r.argc = (tokens (bytes "a b c")).length ∧
          r.argc ≤ ((bytes "a b c").length + 1) / 2) ∧
    (∃ r, parse_line (List.replicate 32 none) (bytes "a b c" ++ END_OF_LINE :: [7])
        MAX_ARG_COUNT = .ok r ∧ r.argc ≤ MAX_ARG_COUNT ∧ r.argv.length = MAX_ARG_COUNT) :=
  ⟨(token_count_bound (bytes "a b c") [7] (List.replicate 32 none) (by decide)).2.1
      (by decide) (by decide),
   (token_count_bound (bytes "a b c") [7] (List.replicate 32 none) (by decide)).2.2
      (by decide) (by decide)⟩

/-- C18, as stated, fails on a line that does not fit the `int` `length`: on the
line made of the word of `2^31 - 2` letters `a`, a tab and the letter `b`, which is
`2^31` bytes long, `parse_line` writes nothing, so the tab at index `2^31 - 2` is
still a tab and has not become the terminator, and no entry of `argv` points at a
word. -/
theorem long_line_unchanged :
    (∀ c ∈ long_word ++ [TAB, 98], c ≠ END_OF_LINE) ∧
    (long_word ++ [TAB, 98] ++ END_OF_LINE :: [])[2147483646]? = some TAB ∧
    ∃ r, parse_line (List.replicate MAX_ARG_COUNT none)
        (long_word ++ [TAB, 98] ++ END_OF_LINE :: []) MAX_ARG_COUNT = .ok r ∧
      r.line_buff[2147483646]? = some TAB ∧ r.argc = 0 ∧
      r.argv = List.replicate MAX_ARG_COUNT none := by
  have hz : ∀ c ∈ long_word ++ [TAB, 98], c ≠ END_OF_LINE := by
    intro c hc
    rcases List.mem_append.1 hc with h | h
    · rw [long_word_bytes c h]; decide
    · rcases List.mem_cons.1 h with h | h
      · rw [h]; decide
      · rw [List.mem_singleton.1 h]; decide
  have hlen : (long_word ++ [TAB, 98]).length = 2147483648 := by
    rw [List.length_append, long_word_length]
    rfl
  have hget : (long_word ++ [TAB, 98] ++ END_OF_LINE :: [])[2147483646]? = some TAB := by
    rw [List.append_assoc,
      List.getElem?_append_right (by rw [long_word_length]), long_word_length]
    rfl
  have hs := strlen_terminated _ [] hz
  rw [hlen] at hs
  exact ⟨hz, hget, _, parse_line_wrapped _ _ MAX_ARG_COUNT 2147483648 hs (by decide), hget,
    rfl, rfl⟩

/-- C18, amended: after `parse_line` on a terminated line of `n < INT_MAX` bytes
the buffer has its old length and holds at every index the byte it held before,
except that the tabs and spaces at indices below `n` have become terminators; the
first `argc` entries of `argv` are, in increasing order, exactly the offsets at
which a word of the line starts, the other entries are unchanged, and the string
at each such offset is the word that starts there in the line. -/
theorem parse_line_frame (l tail : List Nat) (argv : List (Option Nat))
    (hz : ∀ c ∈ l, c ≠ END_OF_LINE) (hshort : l.length < INT_MAX)
    (hcap : (tokens l).length ≤ argv.length) :
    ∃ (r : ParseResult) (offs : List Nat),
      parse_line argv (l ++ END_OF_LINE :: tail) MAX_ARG_COUNT = .ok r ∧
      r.line_buff.length = (l ++ END_OF_LINE :: tail).length ∧
      (∀ i c, (l ++ END_OF_LINE :: tail)[i]? = some c →
        r.line_buff[i]?
          = some (if i < l.length ∧ (c = TAB ∨ c = SPACE) then END_OF_LINE else c)) ∧
      r.argc = offs.length ∧ r.argv = offs.map some ++ argv.drop offs.length ∧
      offs.Pairwise (· < ·) ∧ (∀ off, off ∈ offs ↔ word_start l off) ∧
      (∀ off ∈ offs, cstr r.line_buff off = word_at l off) := by
  have hspec := parse_line_spec l tail argv MAX_ARG_COUNT hz hshort
    (by simpa [tokens] using hcap)
  refine ⟨_, starts false l 0, hspec, ?_, ?_, rfl, rfl, starts_sorted l false 0,
    starts_word_start l, ?_⟩
  · simp [blank_out_length]
  · intro i c h
    exact blank_out_getElem l tail i c h
  · intro off hoff
    have hb := (starts_bound l false 0 off hoff).2
    exact cstr_blank_out l tail off hz (by omega)

theorem parse_line_frame_witness :
    ∃ (r : ParseResult) (offs : List Nat),
      parse_line (List.replicate 32 none) (bytes " ab  c" ++ END_OF_LINE :: [32, 7])
        MAX_ARG_COUNT = .ok r ∧
      r.line_buff.length = (bytes " ab  c" ++ END_OF_LINE :: [32, 7]).length ∧
      (∀ i c, (bytes " ab  c" ++ END_OF_LINE :: [32, 7])[i]? = some c →
        r.line_buff[i]?
          = some (if i < (bytes " ab  c").length ∧ (c = TAB ∨ c = SPACE) then END_OF_LINE
              else c)) ∧
      r.argc = offs.length ∧
      r.argv = offs.map some ++ (List.replicate 32 none).drop offs.length ∧
      offs.Pairwise (· < ·) ∧ (∀ off, off ∈ offs ↔ word_start (bytes " ab  c") off) ∧
      (∀ off ∈ offs, cstr r.line_buff off = word_at (bytes " ab  c") off) :=
  parse_line_frame (bytes " ab  c") [32, 7] (List.replicate 32 none) (by decide) (by decide)
    (by decide)

/-- C20, as stated, fails on a buffer whose terminator is at index `INT_MAX`: on
the word of `2^31 - 2` letters `a` followed by one space the loop comes to its last
pass with `pos = INT_MAX`, and the `pos++` of that pass overflows instead of
leaving `pos = n + 1`, so `parse_line` does not end as the claim says. -/
theorem long_scan_overflows :
    (∀ c ∈ long_word ++ [SPACE], c ≠ END_OF_LINE) ∧
    (long_word ++ [SPACE]).length = INT_MAX ∧
    parse_line (List.replicate MAX_ARG_COUNT none)
        (long_word ++ [SPACE] ++ END_OF_LINE :: []) MAX_ARG_COUNT
      = .error .int_overflow := by
  have hz : ∀ c ∈ long_word ++ [SPACE], c ≠ END_OF_LINE := by
    intro c hc
    rcases List.mem_append.1 hc with h | h
    · rw [long_word_bytes c h]; decide
    · rw [List.mem_singleton.1 h]; decide
  have hlen : (long_word ++ [SPACE]).length = INT_MAX := by
    rw [List.length_append, long_word_length]
    rfl
  have hs : starts false (long_word ++ [SPACE]) 0 = [0] := by
    rw [long_word, starts_false_word 97 _ long_word_in_word,
      starts_gap true SPACE (by decide)]
    rfl
  exact ⟨hz, hlen, parse_line_overflow _ [] _ _ hz hlen (by rw [hs]; decide)⟩

/-- C20, amended: on a terminated buffer whose terminator is at index
`n < INT_MAX`, `parse_line` ends, either returning or in the store behind `argv`,
never by using up the unrolling bound, never in an overflow and never in an access
outside the buffer; at the head of every pass of its loop `pos` is at most `n + 1`,
and every pass begun with `pos ≤ n` leaves `pos` greater than it was; on the buffer
cut off right behind the terminator the outcome is the same, so nothing behind
index `n` is read. -/
theorem parse_line_scan (l tail : List Nat) (argv : List (Option Nat))
    (hz : ∀ c ∈ l, c ≠ END_OF_LINE) (hshort : l.length < INT_MAX) :
    ((∃ r, parse_line argv (l ++ END_OF_LINE :: tail) MAX_ARG_COUNT = .ok r) ∨
      parse_line argv (l ++ END_OF_LINE :: tail) MAX_ARG_COUNT
        = .error (.argv_bounds argv.length)) ∧
    (∀ st, parse_reaches (to_int l.length)
        { argc := 0, pos := 0, argv := argv, line_buff := l ++ END_OF_LINE :: tail } st →
      st.pos ≤ l.length + 1 ∧
      ∀ st', st.pos ≤ l.length → parse_body st = .ok st' →
        st.pos < st'.pos ∧ st'.pos ≤ l.length + 1) ∧
    ((∃ r, parse_line argv (l ++ [END_OF_LINE]) MAX_ARG_COUNT = .ok r) ∨
      parse_line argv (l ++ [END_OF_LINE]) MAX_ARG_COUNT
        = .error (.argv_bounds argv.length)) ∧
    (parse_line argv (l ++ [END_OF_LINE]) MAX_ARG_COUNT).map (fun r => (r.argc, r.argv))
      = (parse_line argv (l ++ END_OF_LINE :: tail) MAX_ARG_COUNT).map
          (fun r => (r.argc, r.argv)) := by
  refine ⟨parse_line_total l tail argv _ hz hshort, ?_, parse_line_total l [] argv _ hz hshort,
    ?_⟩
  · intro st hst
    rw [to_int_small _ (Nat.le_of_lt hshort)] at hst
    obtain ⟨hpos, hterm⟩ := parse_reaches_bound l.length _ st (terminator_at l tail)
      (Nat.zero_le _) hst
    refine ⟨hpos, ?_⟩
    intro st' hle hbody
    have := parse_body_pos st st' l.length hterm hle hbody
    exact ⟨this.1, this.2.1⟩
  · by_cases hcap : (starts false l 0).length ≤ argv.length
    · rw [parse_line_spec l tail argv _ hz hshort hcap,
        parse_line_spec l [] argv _ hz hshort hcap]
      rfl
    · rw [parse_line_overrun l tail argv _ hz hshort (by omega),
        parse_line_overrun l [] argv _ hz hshort (by omega)]

theorem parse_line_scan_witness :
    ((∃ r, parse_line (List.replicate 32 none) (bytes "ab c" ++ END_OF_LINE :: [7])
        MAX_ARG_COUNT = .ok r) ∨
      parse_line (List.replicate 32 none) (bytes "ab c" ++ END_OF_LINE :: [7]) MAX_ARG_COUNT
        = .error (.argv_bounds (List.replicate 32 (none : Option Nat)).length)) ∧
    (∀ st, parse_reaches (to_int (bytes "ab c").length)
        { argc := 0, pos := 0, argv := List.replicate 32 none,
          line_buff := bytes "ab c" ++ END_OF_LINE :: [7] } st →
      st.pos ≤ (bytes "ab c").length + 1 ∧
      ∀ st', st.pos ≤ (bytes "ab c").length → parse_body st = .ok st' →
        st.pos < st'.pos ∧ st'.pos ≤ (bytes "ab c").length + 1) ∧
    ((∃ r, parse_line (List.replicate 32 none) (bytes "ab c" ++ [END_OF_LINE])
        MAX_ARG_COUNT = .ok r) ∨
      parse_line (List.replicate 32 none) (bytes "ab c" ++ [END_OF_LINE]) MAX_ARG_COUNT
        = .error (.argv_bounds (List.replicate 32 (none : Option Nat)).length)) ∧
    (parse_line (List.replicate 32 none) (bytes "ab c" ++ [END_OF_LINE]) MAX_ARG_COUNT).map
        (fun r => (r.argc, r.argv))
      = (parse_line (List.replicate 32 none) (bytes "ab c" ++ END_OF_LINE :: [7])
          MAX_ARG_COUNT).map (fun r => (r.argc, r.argv)) :=
  parse_line_scan (bytes "ab c") [7] (List.replicate 32 none) (by decide) (by decide)

end Esh
